import Mathlib

/-!
Verification of the PuddySQL condition / tag-filter compilers.

This file gives a shallow embedding, in Lean 4, of the SQL WHERE-clause
compilers of the PuddySQL repository and proves the specification claims
about them.  The embedded code:

* `PuddySqlQuery.parseWhere` (src/src/PuddySqlQuery.mjs, lines 1833-1907):
  the generic condition compiler lowering condition trees, single
  conditions and legacy flat maps to SQL text, together with the operator
  registry built by the class constructor (`addCondition`,
  `addConditionV2`, lines 253-510).
* the tag criteria compiler `parseWhere` (legacy version in
  src/src/TinySqlTags.mjs lines 298-361 and current version in
  src/src/PuddySqlEngine.mjs lines 534-618, whose compile loop is
  identical; the versions differ only in their argument validation).
* the tag expression tokenizer `parseString` with its strict-mode checks
  (src/src/PuddySqlEngine.mjs lines 765-888) and the specials extraction
  `#extractSpecialsFromChunks` (lines 639-727).

JavaScript strings are modelled as Lean `String`, JS numbers used by this
code as `Nat`/`Int`, JS values bound into queries as `Option String`
(`none` models `undefined`), and thrown exceptions as `Except` errors
carrying the thrown message.
-/

namespace PuddySql

/-! ## Small JavaScript string helpers -/

/-- ASCII whitespace recognised by the JS `\s` class (the code only ever
meets ASCII input; the Unicode space characters are not modelled). -/
def isWsChar (c : Char) : Bool :=
  c = ' ' || c = '\t' || c = '\n' || c = '\r' || c = '\x0b' || c = '\x0c'

/-- Scanner for `collapseWs`; `prevWs` records whether the previous
character was whitespace, so that a maximal whitespace run becomes one
space. -/
def collapseWsGo (prevWs : Bool) : List Char → List Char
  | [] => []
  | c :: rest =>
    if isWsChar c then
      if prevWs then collapseWsGo true rest
      else ' ' :: collapseWsGo true rest
    else c :: collapseWsGo false rest

/-- JS `replace(/\s+/g, ' ')`: collapse every maximal whitespace run to a
single space. -/
def collapseWs (l : List Char) : List Char := collapseWsGo false l

/-- JS `String.trim()` (ASCII whitespace). -/
def jsTrim (s : String) : String :=
  ⟨(s.data.dropWhile isWsChar).reverse.dropWhile isWsChar |>.reverse⟩

/-- JS `input.replace(/\s+/g, ' ').trim()`. -/
def collapseTrim (s : String) : String := jsTrim ⟨collapseWs s.data⟩

/-- JS `String.prototype.toUpperCase()` (ASCII). -/
def jsToUpper (s : String) : String := ⟨s.data.map Char.toUpper⟩

/-- JS `Array.prototype.join(sep)`. -/
def joinSep (sep : String) : List String → String
  | [] => ""
  | [x] => x
  | x :: y :: rest => x ++ sep ++ joinSep sep (y :: rest)

/-- JS `String.prototype.includes(sub)` (substring occurrence test). -/
def jsIncludes (s sub : String) : Bool :=
  go s.data
where
  go : List Char → Bool
  | [] => sub.data.isPrefixOf []
  | c :: rest => sub.data.isPrefixOf (c :: rest) || go rest

/-- JS `String.prototype.split(sep)` for a single-character separator,
as a list of character lists. -/
def splitOnChar (sep : Char) : List Char → List (List Char)
  | [] => [[]]
  | c :: rest =>
    if c = sep then [] :: splitOnChar sep rest
    else
      match splitOnChar sep rest with
      | [] => [[c]]
      | h :: t => (c :: h) :: t

/-- JS `String.prototype.split(sep)` for a single-character separator. -/
def jsSplitChar (s : String) (sep : Char) : List String :=
  (splitOnChar sep s.data).map fun l => ⟨l⟩

/-- Scanner for `jsReplaceAll`: replace every occurrence of the non-empty
pattern `p :: ps` by `rep`, scanning left to right.  The fuel argument
only bounds the recursion; a match consumes at least one character, so
fuel equal to the input length always suffices. -/
def replaceAllGo (p : Char) (ps : List Char) (rep : List Char) :
    Nat → List Char → List Char
  | _, [] => []
  | 0, l => l
  | fuel + 1, c :: rest =>
    if (p :: ps).isPrefixOf (c :: rest) then
      rep ++ replaceAllGo p ps rep fuel (rest.drop ps.length)
    else c :: replaceAllGo p ps rep fuel rest

/-- JS `String.prototype.replaceAll(pat, rep)` for a non-empty pattern
string (every wildcard token the code substitutes is non-empty). -/
def jsReplaceAll (s pat rep : String) : String :=
  match pat.data with
  | [] => s
  | p :: ps => ⟨replaceAllGo p ps rep.data s.data.length s.data⟩

/-- Fueled decimal renderer; fuel `n + 1` always suffices for `n`. -/
def natReprAux : Nat → Nat → List Char
  | 0, _ => []
  | fuel + 1, n =>
    if n < 10 then [Char.ofNat (48 + n)]
    else natReprAux fuel (n / 10) ++ [Char.ofNat (48 + n % 10)]

/-- Decimal rendering of a natural number, modelling the JS number to
string coercion `${n}` for the non-negative integers this code produces. -/
def natRepr (n : Nat) : List Char := natReprAux (n + 1) n

theorem natReprAux_fuel (fuel fuel' n : Nat) (h : n < fuel) (h' : n < fuel') :
    natReprAux fuel n = natReprAux fuel' n := by
  induction fuel generalizing fuel' n with
  | zero => omega
  | succ f ih =>
    cases fuel' with
    | zero => omega
    | succ f' =>
      by_cases hn : n < 10
      · simp [natReprAux, hn]
      · have hdiv : n / 10 < n := Nat.div_lt_self (by omega) (by omega)
        simp only [natReprAux, hn, if_false]
        rw [ih f' (n / 10) (by omega) (by omega)]

/-- Unfolding equation of `natRepr`, hiding the fuel. -/
theorem natRepr_unfold (n : Nat) :
    natRepr n = if n < 10 then [Char.ofNat (48 + n)]
                else natRepr (n / 10) ++ [Char.ofNat (48 + n % 10)] := by
  by_cases hn : n < 10
  · simp [natRepr, natReprAux, hn]
  · have hdiv : n / 10 < n := Nat.div_lt_self (by omega) (by omega)
    rw [if_neg hn]
    have h1 : natRepr n = natReprAux n (n / 10) ++ [Char.ofNat (48 + n % 10)] := by
      simp [natRepr, natReprAux, hn]
    rw [h1]
    have h2 : natReprAux n (n / 10) = natReprAux (n / 10 + 1) (n / 10) :=
      natReprAux_fuel n (n / 10 + 1) (n / 10) (by omega) (by omega)
    rw [h2]
    rfl

/-- Decimal rendering as a `String`. -/
def natStr (n : Nat) : String := ⟨natRepr n⟩

/-- A string free of the placeholder marker character. -/
def noDollar (s : String) : Bool := !(s.data.contains '$')

/-! ## Placeholder occurrences

A `$`-placeholder in a SQL text is an occurrence of `$` immediately
followed by a maximal run of decimal digits; this is exactly the notion
the repository itself uses to analyse its generated SQL (the regex
`/\$([0-9]+)/g` in `validatePostgresParams` and `convertPgToMySQLSyntax`
in src/src/Utils.mjs).  `phAux` is a left-to-right scanner for these
occurrences, returning the digit runs in textual order. -/

/-- Scanner state: ordinary text, just after a `$`, or inside the digit
run of a placeholder (with the digits read so far). -/
inductive PhState where
  | normal : PhState
  | afterDollar : PhState
  | inNum : List Char → PhState
deriving Repr, DecidableEq

/-- Left-to-right scan collecting the digit run of every `$`-placeholder. -/
def phAux : List Char → PhState → List (List Char)
  | [], .inNum acc => [acc]
  | [], _ => []
  | c :: rest, .normal =>
    if c = '$' then phAux rest .afterDollar else phAux rest .normal
  | c :: rest, .afterDollar =>
    if c.isDigit then phAux rest (.inNum [c])
    else if c = '$' then phAux rest .afterDollar else phAux rest .normal
  | c :: rest, .inNum acc =>
    if c.isDigit then phAux rest (.inNum (acc ++ [c]))
    else if c = '$' then acc :: phAux rest .afterDollar
    else acc :: phAux rest .normal

/-- The list of placeholder digit runs of a SQL text, in textual order. -/
def phNums (s : String) : List (List Char) := phAux s.data .normal

/-- The placeholder lists `[natRepr i, ..., natRepr (i+m-1)]` expected from
a compile that allocates indices `i, ..., i+m-1` in order. -/
def phRange (i m : Nat) : List (List Char) := (List.range' i m).map natRepr

/-- Appending text whose first character is not a digit splits the scan:
no placeholder or digit run can span the boundary. -/
theorem phAux_append (a b : List Char) (st : PhState)
    (hb : ∀ c, b.head? = some c → c.isDigit = false) :
    phAux (a ++ b) st = phAux a st ++ phAux b .normal := by
  induction a generalizing st with
  | nil =>
    simp only [List.nil_append]
    match st with
    | .normal => simp [phAux]
    | .afterDollar =>
      cases b with
      | nil => simp [phAux]
      | cons c rest =>
        have hc : c.isDigit = false := hb c rfl
        simp [phAux, hc]
    | .inNum acc =>
      cases b with
      | nil => simp [phAux]
      | cons c rest =>
        have hc : c.isDigit = false := hb c rfl
        by_cases hx : c = '$' <;> simp [phAux, hc, hx]
  | cons x xs ih =>
    match st with
    | .normal =>
      by_cases hx : x = '$' <;> simp [phAux, hx, ih]
    | .afterDollar =>
      by_cases hd : x.isDigit <;> by_cases hx : x = '$' <;>
        simp [phAux, hd, hx, ih]
    | .inNum acc =>
      by_cases hd : x.isDigit <;> by_cases hx : x = '$' <;>
        simp [phAux, hd, hx, ih]

/-- Text without `$` contributes nothing to the scan from the normal
state, and leaves the scanner in the normal state. -/
theorem phAux_noDollar (a b : List Char) (ha : a.contains '$' = false) :
    phAux (a ++ b) .normal = phAux b .normal := by
  induction a with
  | nil => simp
  | cons x xs ih =>
    have hx : ¬(x = '$') := by
      intro h
      rw [h] at ha
      simp [List.contains_cons] at ha
    have ha' : xs.contains '$' = false := by
      simp [List.contains_cons] at ha
      simp [ha.2]
    simp [phAux, hx, ih ha']

/-- A `$`-free string has no placeholders. -/
theorem phNums_noDollar (s : String) (h : noDollar s = true) :
    phNums s = [] := by
  have h' : s.data.contains '$' = false := by
    simpa [noDollar] using h
  have := phAux_noDollar s.data [] h'
  simpa [phNums] using this

/-- The first character of the list, when there is one, is not a digit. -/
def headNotDigit (l : List Char) : Prop :=
  ∀ c, l.head? = some c → c.isDigit = false

theorem isDigit_ofNat_add (n : Nat) (h : n < 10) :
    (Char.ofNat (48 + n)).isDigit = true := by
  interval_cases n <;> decide

theorem natRepr_all_digit (n : Nat) : ∀ c ∈ natRepr n, c.isDigit = true := by
  induction n using Nat.strong_induction_on with
  | _ n ih =>
    intro c hc
    by_cases h : n < 10
    · rw [natRepr_unfold] at hc
      simp [h] at hc
      rw [hc]
      exact isDigit_ofNat_add n h
    · rw [natRepr_unfold] at hc
      simp [h] at hc
      rcases hc with hc | hc
      · exact ih (n / 10) (Nat.div_lt_self (by omega) (by omega)) c hc
      · rw [hc]
        exact isDigit_ofNat_add (n % 10) (Nat.mod_lt _ (by omega))

theorem natRepr_ne_nil (n : Nat) : natRepr n ≠ [] := by
  rw [natRepr_unfold]
  split
  · simp
  · simp

theorem natRepr_no_dollar (n : Nat) : (natRepr n).contains '$' = false := by
  rw [List.contains_eq_any_beq]
  rw [List.any_eq_false]
  intro c hc
  have := natRepr_all_digit n c hc
  intro hcd
  have hc' : c = '$' := by
    have h2 : '$' = c := by simpa using hcd
    exact h2.symm
  rw [hc'] at this
  simp [Char.isDigit] at this

/-- Scanning an all-digit run from inside a number accumulates it. -/
theorem phAux_digits_inNum (ds : List Char) (hd : ∀ c ∈ ds, c.isDigit = true) :
    ∀ rest acc, phAux (ds ++ rest) (.inNum acc) = phAux rest (.inNum (acc ++ ds)) := by
  induction ds with
  | nil => simp
  | cons c cs ih =>
    intro rest acc
    have hc : c.isDigit = true := hd c (by simp)
    have hcs : ∀ x ∈ cs, x.isDigit = true := fun x hx => hd x (by simp [hx])
    simp only [List.cons_append, phAux, hc, if_true, List.append_eq]
    rw [ih hcs rest (acc ++ [c])]
    simp

/-- Closing a digit run: text that starts with a non-digit and contains no
`$` flushes the accumulated number and yields nothing further. -/
theorem phAux_inNum_close (post : List Char) (acc : List Char)
    (hpost : post.contains '$' = false) (hh : headNotDigit post) :
    phAux post (.inNum acc) = [acc] := by
  cases post with
  | nil => simp [phAux]
  | cons c rest =>
    have hc : c.isDigit = false := hh c rfl
    have hcne : ¬(c = '$') := by
      intro h
      rw [h] at hpost
      simp [List.contains_cons] at hpost
    have hrest : rest.contains '$' = false := by
      simp [List.contains_cons] at hpost
      simp [hpost.2]
    have := phAux_noDollar rest [] hrest
    simp [phAux, hc, hcne]
    simpa using this

/-- Scanning `natRepr k ++ post` from the just-after-`$` state yields
exactly the placeholder `k`, provided `post` opens with a non-digit and
contains no `$`. -/
theorem phAux_num_afterDollar (k : Nat) (post : List Char)
    (hpost : post.contains '$' = false) (hh : headNotDigit post) :
    phAux (natRepr k ++ post) .afterDollar = [natRepr k] := by
  cases hk : natRepr k with
  | nil => exact absurd hk (natRepr_ne_nil k)
  | cons d ds =>
    have hall : ∀ c ∈ natRepr k, c.isDigit = true := natRepr_all_digit k
    have hd : d.isDigit = true := by
      apply hall
      simp [hk]
    have hds : ∀ c ∈ ds, c.isDigit = true := by
      intro c hc
      apply hall
      simp [hk, hc]
    simp only [List.cons_append, phAux, hd, if_true, List.append_eq]
    rw [phAux_digits_inNum ds hds post [d]]
    rw [phAux_inNum_close post ([d] ++ ds) hpost hh]
    simp

/-- Scanning a parameter text `pre ++ "$" ++ natRepr k ++ post` from the
normal or just-after-`$` state yields exactly the placeholder `k`, when the
surrounding pieces are `$`-free and do not open with a digit. -/
theorem phAux_param (pre post : List Char) (k : Nat) (st : PhState)
    (hst : st = .normal ∨ st = .afterDollar)
    (hpre : pre.contains '$' = false) (hpreh : headNotDigit pre)
    (hpost : post.contains '$' = false) (hposth : headNotDigit post) :
    phAux (pre ++ '$' :: (natRepr k ++ post)) st = [natRepr k] := by
  cases pre with
  | nil =>
    rcases hst with h | h <;> rw [h] <;>
      simp [phAux, phAux_num_afterDollar k post hpost hposth]
  | cons c cs =>
    have hc : c.isDigit = false := hpreh c rfl
    have hcne : ¬(c = '$') := by
      intro h
      rw [h] at hpre
      simp [List.contains_cons] at hpre
    have hcs : cs.contains '$' = false := by
      simp [List.contains_cons] at hpre
      simp [hpre.2]
    have hrest : phAux (cs ++ '$' :: (natRepr k ++ post)) .normal
        = phAux ('$' :: (natRepr k ++ post)) .normal :=
      phAux_noDollar cs _ hcs
    rcases hst with h | h <;> rw [h] <;>
      simp [phAux, hc, hcne, hrest, phAux_num_afterDollar k post hpost hposth]

/-! ## The placeholder cache

`Pcache` models the `{ index, values }` record threaded through every
compile (src/src/PuddySqlQuery.mjs, typedef `Pcache`).  JS values bound
into the query are modelled as `Option String`: `some s` is a string
value, `none` models `undefined`. -/

/-- A JS value pushed into `pCache.values`; `none` models `undefined`. -/
abbrev JsVal := Option String

/-- Rendering of a JS value inside a template literal. -/
def jsValStr : JsVal → String
  | some s => s
  | none => "undefined"

structure Pcache where
  index : Nat
  values : List JsVal
deriving Repr, DecidableEq

/-! ## The generic condition compiler (src/src/PuddySqlQuery.mjs)

`PuddySqlQuery.parseWhere` (lines 1833-1907) dispatches on the shape of
its `group` argument: an object with a `conditions` array is a composite
node; otherwise an object with a truthy `column` is a single condition; any
other object is the legacy flat map (`Object.entries`, one implicit-AND
condition per entry).  The three shapes are modelled by the constructors
of `QueryGroup`.  A flat-map entry whose value is not a plain object (the
`Invalid parseWhere to col` throw) is modelled by a `none` entry. -/

/-- A single condition object: `column`, `operator`, `value`, `valType`,
plus the fields read by the registered resolvers (`lPos`, `newOp`,
`funcName`).  `funcName` is three-state in JS (string, `null`, absent) and
is modelled by `Option (Option String)`. -/
structure Leaf where
  column : Option String
  operator : Option String
  value : JsVal
  valType : Option String
  lPos : Option String
  newOp : Option String
  funcName : Option (Option String)
deriving Repr, DecidableEq

/-- A condition leaf with only `column` and `value` set, as in the
examples of the spec. -/
def mkLeaf (col : String) (v : String) : Leaf :=
  ⟨some col, none, some v, none, none, none, none⟩

/-- Result of a condition resolver (`#conditions[key](cond)`): the fields
`parseWhere` reads from it, each optional because the source checks
`typeof` before using them (`value` uses the `undefined` check, so an
absent field is `none`). -/
structure ResolveResult where
  operator : Option String
  value : Option JsVal
  column : Option String
  valType : Option String

/-- The three condition node shapes accepted by `parseWhere`. -/
inductive QueryGroup where
  | comp : Option String → List QueryGroup → QueryGroup
  | flat : List (String × Option Leaf) → QueryGroup
  | leaf : Leaf → QueryGroup

/-- Resolver stored by `addCondition` for a string handler:
`() => ({ operator: conditionHandler })`. -/
def strResolver (s : String) : Leaf → ResolveResult :=
  fun _ => ⟨some s, none, none, none⟩

/-- Resolver stored by `addCondition` for an object handler: a clone of
the object. -/
def objResolver (r : ResolveResult) : Leaf → ResolveResult :=
  fun _ => r

/-- The `LIKE` resolver registered by the constructor (lines 255-261):
wraps the value in `%` on the sides selected by `lPos`. -/
def likeResolver : Leaf → ResolveResult :=
  fun condition =>
    ⟨some "LIKE",
     some (some
       ((if (condition.lPos.isNone || condition.lPos == some "left") then "%" else "")
        ++ jsValStr condition.value
        ++ (if (condition.lPos.isNone || condition.lPos == some "right") then "%" else ""))),
     none, none⟩

/-- Rendering of an optional string in a template literal. -/
def optStr : Option String → String
  | some s => s
  | none => "undefined"

/-- The resolver registered by `addConditionV2` (lines 488-510): operator
overridable through `newOp`, `valType` selected through `funcName` and
`editParamByDefault`, and the column wrapped in the SQL function. -/
def v2Resolver (funcName : String) (editParamByDefault : Bool) (op : String) :
    Leaf → ResolveResult :=
  fun condition =>
    ⟨some (match condition.newOp with
           | some s => s
           | none => op),
     none,
     some (funcName ++ "(" ++ optStr condition.column ++ ")"),
     match condition.funcName with
     | some (some s) => some s
     | some none => none
     | none => if editParamByDefault then some funcName else none⟩

/-- The value handler registered by `addConditionV2`:
`(param) => funcName(param)`. -/
def v2ValHandler (funcName : String) : String → String :=
  fun param => funcName ++ "(" ++ param ++ ")"

/-- The operator registry: `#conditions` and `#customValFunc` of
`PuddySqlQuery`, as insertion-ordered association lists. -/
structure Registry where
  conds : List (String × (Leaf → ResolveResult))
  valf : List (String × (String → String))

/-- JS object property lookup on an association list. -/
def lookupKey (l : List (String × α)) (k : String) : Option α :=
  match l.find? (fun e => e.1 == k) with
  | some e => some e.2
  | none => none

/-- The input shapes `addCondition` accepts for its `conditionHandler`
argument: a string operator, an object with an `operator` field, or a
resolver function. -/
inductive CondHandler where
  | str : String → CondHandler
  | obj : ResolveResult → CondHandler
  | func : (Leaf → ResolveResult) → CondHandler

/-- `addCondition(key, conditionHandler, valueHandler)` (lines 367-405).
The returned pair is the thrown error (if any) together with the registry
after the call; every throw in the source happens before the assignments,
so a failing call returns the registry unchanged. -/
def addCondition (r : Registry) (key : String) (ch : CondHandler)
    (vh : Option (String → String)) : Except String Unit × Registry :=
  if jsTrim key = "" then
    (.error "Condition key must be a non-empty string.", r)
  else if (lookupKey r.conds key).isSome || (lookupKey r.valf key).isSome then
    (.error ("Condition key \"" ++ key ++ "\" already exists."), r)
  else
    match ch with
    | .obj o =>
      match o.operator with
      | some opStr =>
        if jsTrim opStr = "" then
          (.error "When using an object as condition handler, it must contain a non-empty string \"operator\" field.", r)
        else
          (.ok (),
           ⟨r.conds ++ [(key, objResolver o)],
            match vh with
            | some f => r.valf ++ [(key, f)]
            | none => r.valf⟩)
      | none =>
        (.error "When using an object as condition handler, it must contain a non-empty string \"operator\" field.", r)
    | .str s =>
      (.ok (),
       ⟨r.conds ++ [(key, strResolver s)],
        match vh with
        | some f => r.valf ++ [(key, f)]
        | none => r.valf⟩)
    | .func f =>
      (.ok (),
       ⟨r.conds ++ [(key, f)],
        match vh with
        | some g => r.valf ++ [(key, g)]
        | none => r.valf⟩)

/-- `addConditionV2(funcName, editParamByDefault, operator)`
(lines 488-510). -/
def addConditionV2 (r : Registry) (funcName : String)
    (editParamByDefault : Bool) (op : String) : Except String Unit × Registry :=
  if jsTrim funcName = "" then
    (.error ("funcName must be a non-empty string. Received: " ++ funcName), r)
  else if jsTrim op = "" then
    (.error ("operator must be a non-empty string. Received: " ++ op), r)
  else
    addCondition r funcName (.func (v2Resolver funcName editParamByDefault op))
      (some (v2ValHandler funcName))

/-- Chaining form of `addCondition` used to model the constructor, which
would abort on the first thrown error. -/
def addC (r : Except String Registry) (key : String) (ch : CondHandler)
    (vh : Option (String → String)) : Except String Registry :=
  match r with
  | .error e => .error e
  | .ok reg =>
    match addCondition reg key ch vh with
    | (.ok _, reg2) => .ok reg2
    | (.error e, _) => .error e

/-- Chaining form of `addConditionV2`. -/
def addC2 (r : Except String Registry) (funcName : String)
    (editParamByDefault : Bool) (op : String) : Except String Registry :=
  match r with
  | .error e => .error e
  | .ok reg =>
    match addConditionV2 reg funcName editParamByDefault op with
    | (.ok _, reg2) => .ok reg2
    | (.error e, _) => .error e

/-- The registrations performed by the `PuddySqlQuery` constructor
(lines 253-311), in source order.  `addConditionV2` defaults are
`editParamByDefault = false`, `operator = '='`. -/
def buildDefaultRegistry : Except String Registry :=
  addC2 (addC2 (addC2 (addC2 (addC2 (addC2 (addC2 (addC2 (addC2 (addC2
  (addC2 (addC2 (addC2 (addC2 (addC2 (addC2 (addC2 (addC2 (addC2 (addC2
  (addC2
  (addC (addC (addC (addC (addC (addC (addC
  (addC (.ok ⟨[], []⟩) "LIKE" (.func likeResolver) none)
   "NOT" (.str "!=") none)
   "=" (.str "=") none)
   "!=" (.str "!=") none)
   ">=" (.str ">=") none)
   "<=" (.str "<=") none)
   ">" (.str ">") none)
   "<" (.str "<") none)
   "SOUNDEX" true "=")
   "LOWER" false "=")
   "UPPER" false "=")
   "TRIM" false "=")
   "LTRIM" false "=")
   "RTRIM" false "=")
   "LENGTH" false "=")
   "ABS" false "=")
   "ROUND" false "=")
   "CEIL" false ">=")
   "FLOOR" false "<=")
   "COALESCE" false "=")
   "HEX" false "=")
   "QUOTE" false "=")
   "UNICODE" false "=")
   "CHAR" false "=")
   "TYPEOF" false "=")
   "DATE" false "=")
   "TIME" false "=")
   "DATETIME" false "=")
   "JULIANDAY" false "="

/-- The registry a fresh `PuddySqlQuery` instance carries. -/
def defaultRegistry : Registry :=
  match buildDefaultRegistry with
  | .ok r => r
  | .error _ => ⟨[], []⟩

/-- `getParamResult(valType)` (lines 1851-1857): allocate the next
placeholder index and wrap the placeholder text with the registered
value-transform when `#customValFunc[valType]` is a function.  Returns the
parameter text together with the cache after `pCache.index++`. -/
def getParamResult (reg : Registry) (pc : Pcache) (valType : Option String) :
    String × Pcache :=
  let newIndex := pc.index
  let text := match valType with
    | some t =>
      match lookupKey reg.valf t with
      | some f => f ("$" ++ natStr newIndex)
      | none => "$" ++ natStr newIndex
    | none => "$" ++ natStr newIndex
  (text, ⟨pc.index + 1, pc.values⟩)

/-- The operator-resolution block shared verbatim by the flat branch
(lines 1866-1879) and the single-condition branch (lines 1889-1903):
starting from column `col0`, operator `'='`, the value and `valType` of
the condition object, apply the overrides of the registered resolver when
the uppercased operator key is registered. -/
def applyResolver (reg : Registry) (col0 : String) (l : Leaf) :
    String × String × JsVal × Option String :=
  let base := (col0, "=", l.value, l.valType)
  match l.operator with
  | some opKey =>
    match lookupKey reg.conds (jsToUpper opKey) with
    | some f =>
      let r := f l
      ((match r.column with | some c => c | none => col0),
       (match r.operator with | some o => o | none => "="),
       (match r.value with | some v => v | none => l.value),
       (match r.valType with | some t => some t | none => l.valType))
    | none => base
  | none => base

/-- The single-condition branch of `parseWhere` (lines 1888-1906). -/
def qParseLeaf (reg : Registry) (pc : Pcache) (l : Leaf) : String × Pcache :=
  match applyResolver reg (optStr l.column) l with
  | (col, op, value, valType) =>
    let pc1 : Pcache := ⟨pc.index, pc.values ++ [value]⟩
    match getParamResult reg pc1 valType with
    | (param, pc2) => (col ++ " " ++ op ++ " " ++ param, pc2)

/-- The legacy flat-map branch of `parseWhere` (lines 1859-1886): one
condition per object entry, joined with `AND`.  An entry whose value is
not a plain object throws.  Note the template of line 1883 writes a
literal `$` before the already-`$`-prefixed parameter text. -/
def qParseFlat (reg : Registry) (pc : Pcache) :
    List (String × Option Leaf) → Except String (List String × Pcache)
  | [] => .ok ([], pc)
  | (newCol, none) :: _ =>
    .error ("Invalid parseWhere to col " ++ newCol ++ ".")
  | (newCol, some cond) :: rest =>
    match applyResolver reg newCol cond with
    | (col, op, value, valType) =>
      let pc1 : Pcache := ⟨pc.index, pc.values ++ [value]⟩
      match getParamResult reg pc1 valType with
      | (param, pc2) =>
        match qParseFlat reg pc2 rest with
        | .error e => .error e
        | .ok (frags, pc3) =>
          .ok (("(" ++ col ++ " " ++ op ++ " $" ++ param ++ ")") :: frags, pc3)

mutual

/-- `PuddySqlQuery.parseWhere(pCache, group)` (lines 1833-1907).  The
`pCache` normalisation of lines 1835-1836 is the identity on the typed
cache; the three duck-typed shapes of `group` are the three
`QueryGroup` constructors. -/
def qParseWhere (reg : Registry) (pc : Pcache) (g : QueryGroup) :
    Except String (String × Pcache) :=
  match g with
  | .comp logic conds =>
    let logicStr := match logic with
      | some s => if jsToUpper s = "OR" then "OR" else "AND"
      | none => "AND"
    match qParseConds reg pc conds with
    | .error e => .error e
    | .ok (frags, pc2) => .ok (joinSep (" " ++ logicStr ++ " ") frags, pc2)
  | .flat entries =>
    match qParseFlat reg pc entries with
    | .error e => .error e
    | .ok (frags, pc2) => .ok (joinSep " AND " frags, pc2)
  | .leaf l => .ok (qParseLeaf reg pc l)
termination_by structural g

/-- The recursive `group.conditions.map` of lines 1841-1843, each child
wrapped in parentheses. -/
def qParseConds (reg : Registry) (pc : Pcache) :
    List QueryGroup → Except String (List String × Pcache)
  | [] => .ok ([], pc)
  | c :: rest =>
    match qParseWhere reg pc c with
    | .error e => .error e
    | .ok (s, pc2) =>
      match qParseConds reg pc2 rest with
      | .error e => .error e
      | .ok (ss, pc3) => .ok (("(" ++ s ++ ")") :: ss, pc3)
termination_by structural cs => cs

end

end PuddySql

namespace PuddySql

/-! ## The tag criteria compiler

The repository ships two generations of the tag compiler class
`PuddySqlTags`: the legacy one in src/src/TinySqlTags.mjs and the current
one bundled in src/src/PuddySqlEngine.mjs.  Their compile loops
(`createQuery`, `filterTag`, the `include` loop and the final join,
lines 315-361 and 559-617 respectively) are textually identical; they
differ only in argument validation: the legacy `parseWhere` silently
returns `''` for non-object arguments and defaults a missing `include`
to `[]`, while the current one throws `TypeError`s.  `tagCore` below
models the shared loop; `tagParseWhere` and `tagParseWhereLegacy` model
the two wrappers. -/

/-- A registered special query `{ title, parser? }`. -/
structure SpecialQuery where
  title : String
  parser : Option (String → String)

/-- A `#tagInputs` entry `{ list, valueKey }`; the record key is the
symbol character. -/
structure TagInput where
  list : String
  valueKey : String
deriving Repr, DecidableEq

/-- The configurable state of a `PuddySqlTags` instance, with the
defaults of the class fields. -/
structure TagCfg where
  jsonEach : Option String
  useJsonEach : Bool
  defaultColumn : String
  defaultValueName : Option String
  wildcardA : String
  wildcardB : String
  noRepeat : Bool
  parseLimit : Int
  specialQueries : List SpecialQuery
  tagInputs : List (Char × TagInput)

/-- The field values of a freshly constructed `PuddySqlTags` instance. -/
def defaultTagCfg : TagCfg :=
  ⟨some "json_array_elements_text", true, "tags", none, "*", "?", false, -1,
   [], [('^', ⟨"boosts", "boost"⟩), ('~', ⟨"fuzzies", "fuzzy"⟩)]⟩

/-- Rendering of a nullable string in a template literal (`null` prints
as `"null"`). -/
def nullStr : Option String → String
  | some s => s
  | none => "null"

/-- One tokenizer output unit: a bare term or an OR-group of terms. -/
inductive Chunk where
  | single : String → Chunk
  | orGroup : List String → Chunk
deriving Repr, DecidableEq

/-- The tag criteria object passed to the tag `parseWhere`; optional
fields model absent properties. -/
structure TagGroup where
  column : Option String
  valueName : Option String
  allowWildcards : Option Bool
  includeList : Option (List Chunk)

/-- JS `a || b` for an optional string `a` (empty string is falsy). -/
def orFalsy (a : Option String) (b : Option String) : Option String :=
  match a with
  | some s => if s = "" then b else some s
  | none => b

/-- The `createQuery` closure (TinySqlTags.mjs lines 315-320): renders one
`EXISTS`/`NOT EXISTS` sub-query in `json_each` or flat-table mode. -/
def createQuery (cfg : TagCfg) (tagsColumn : String) (tagsValue : Option String)
    (funcName : String) (param : String) (useLike : Bool) : String :=
  funcName ++ " (SELECT 1 FROM "
    ++ (if cfg.useJsonEach then
          nullStr cfg.jsonEach ++ "(" ++ tagsColumn ++ ") WHERE value "
            ++ (if useLike then "LIKE" else "=") ++ " " ++ param
        else
          tagsColumn ++ " WHERE " ++ tagsColumn ++ "." ++ nullStr tagsValue
            ++ " " ++ (if useLike then "LIKE" else "=") ++ " " ++ param)
    ++ ")"

/-- The escape step `cleanTag.replace(/([%_])/g, '\\$1')`. -/
def escapePctUnd (s : String) : String :=
  ⟨s.data.flatMap fun c => if c = '%' || c = '_' then ['\\', c] else [c]⟩

/-- The wildcard substitution applied when a tag uses wildcards: escape
literal `%`/`_`, then `replaceAll(wildcardA, '%')`, then
`replaceAll(wildcardB, '_')`. -/
def applyWildcards (cfg : TagCfg) (cleanTag : String) : String :=
  jsReplaceAll (jsReplaceAll (escapePctUnd cleanTag) cfg.wildcardA "%") cfg.wildcardB "_"

/-- Whether a cleaned tag contains one of the configured wildcard tokens. -/
def hasWildcard (cfg : TagCfg) (cleanTag : String) : Bool :=
  jsIncludes cleanTag cfg.wildcardA || jsIncludes cleanTag cfg.wildcardB

/-- The `filterTag` closure (TinySqlTags.mjs lines 326-344): strip a
leading `!`, allocate the next placeholder, substitute wildcards when
allowed and present, and push the resulting value. -/
def filterTag (cfg : TagCfg) (allowWildcards : Bool) (pc : Pcache)
    (tag : String) : (String × Bool × Bool) × Pcache :=
  let isNot := tag.data.head? = some '!'
  let cleanTag : String := if isNot then ⟨tag.data.tail⟩ else tag
  let param := "$" ++ natStr pc.index
  let usesWildcard := allowWildcards && hasWildcard cfg cleanTag
  let filteredTag := if usesWildcard then applyWildcards cfg cleanTag else cleanTag
  ((param, usesWildcard, isNot), ⟨pc.index + 1, pc.values ++ [some filteredTag]⟩)

/-- One compiled fragment for a single tag: `filterTag` then
`createQuery` with `NOT EXISTS`/`EXISTS`. -/
def tagFragment (cfg : TagCfg) (tagsColumn : String) (tagsValue : Option String)
    (allowWildcards : Bool) (pc : Pcache) (tag : String) : String × Pcache :=
  match filterTag cfg allowWildcards pc tag with
  | ((param, usesWildcard, isNot), pc2) =>
    (createQuery cfg tagsColumn tagsValue
       ((if isNot then "NOT " else "") ++ "EXISTS") param usesWildcard, pc2)

/-- The `clause.map` over an OR-group (lines 348-351). -/
def tagOrFragments (cfg : TagCfg) (tagsColumn : String) (tagsValue : Option String)
    (allowWildcards : Bool) (pc : Pcache) :
    List String → List String × Pcache
  | [] => ([], pc)
  | t :: rest =>
    match tagFragment cfg tagsColumn tagsValue allowWildcards pc t with
    | (frag, pc2) =>
      match tagOrFragments cfg tagsColumn tagsValue allowWildcards pc2 rest with
      | (frags, pc3) => (frag :: frags, pc3)

/-- The `for (const clause of include)` loop (lines 346-357), collecting
the `where` fragments. -/
def tagClauses (cfg : TagCfg) (tagsColumn : String) (tagsValue : Option String)
    (allowWildcards : Bool) (pc : Pcache) :
    List Chunk → List String × Pcache
  | [] => ([], pc)
  | .single t :: rest =>
    match tagFragment cfg tagsColumn tagsValue allowWildcards pc t with
    | (frag, pc2) =>
      match tagClauses cfg tagsColumn tagsValue allowWildcards pc2 rest with
      | (frags, pc3) => (frag :: frags, pc3)
  | .orGroup l :: rest =>
    match tagOrFragments cfg tagsColumn tagsValue allowWildcards pc l with
    | (ors, pc2) =>
      match tagClauses cfg tagsColumn tagsValue allowWildcards pc2 rest with
      | (frags, pc3) =>
        if ors.length ≠ 0 then (("(" ++ joinSep " OR " ors ++ ")") :: frags, pc3)
        else (frags, pc3)

/-- The shared compile loop of both tag `parseWhere` versions: resolve
the column, value alias and wildcard flag, compile every include chunk,
and join with `AND` (or return the tautology `'1'`). -/
def tagCore (cfg : TagCfg) (g : TagGroup) (inc : List Chunk) (pc : Pcache) :
    String × Pcache :=
  let tagsColumn := nullStr (orFalsy g.column (some cfg.defaultColumn))
  let tagsValue := orFalsy g.valueName cfg.defaultValueName
  let allowWildcards := match g.allowWildcards with
    | some b => b
    | none => false
  match tagClauses cfg tagsColumn tagsValue allowWildcards pc inc with
  | (whereFrags, pc2) =>
    (if whereFrags.length ≠ 0 then "(" ++ joinSep " AND " whereFrags ++ ")" else "1",
     pc2)

/-- The current tag compiler `PuddySqlTags.parseWhere`
(src/src/PuddySqlEngine.mjs lines 534-618): validation throws
`TypeError`s, in particular when `group.include` is not an array
(lines 553-556); then the shared loop runs.  A missing or non-array
`include` is modelled by `none`. -/
def tagParseWhere (cfg : TagCfg) (g : TagGroup) (pc : Pcache) :
    Except String (String × Pcache) :=
  match g.includeList with
  | none =>
    .error "Expected 'include' to be an array of tags or tag groups, but got undefined"
  | some inc => .ok (tagCore cfg g inc pc)

/-- A duck-typed JS argument: either a plain object of the expected shape
or anything else (`notObj`), which `isJsonObject` rejects. -/
inductive JsArg (α : Type) where
  | obj : α → JsArg α
  | notObj : JsArg α
deriving Repr, DecidableEq

/-- The legacy cache argument before normalisation: `index` is `none`
when the property is not a number, `values` is `none` when it is not an
array. -/
structure RawPcache where
  index : Option Nat
  values : Option (List JsVal)
deriving Repr, DecidableEq

/-- The legacy tag compiler `PuddySqlTags.parseWhere`
(src/src/TinySqlTags.mjs lines 298-361): non-object arguments make it
return `''` untouched (line 299); otherwise the cache is normalised
(lines 300-301), a missing `include` defaults to `[]` (line 307), and the
shared loop runs. -/
def tagParseWhereLegacy (cfg : TagCfg) (g : JsArg TagGroup)
    (pc : JsArg RawPcache) : String × JsArg RawPcache :=
  match g, pc with
  | .obj gg, .obj rpc =>
    let pc0 : Pcache :=
      ⟨(match rpc.index with | some i => i | none => 1),
       (match rpc.values with | some v => v | none => [])⟩
    let inc := match gg.includeList with
      | some l => l
      | none => []
    match tagCore cfg gg inc pc0 with
    | (sql, pc2) => (sql, .obj ⟨some pc2.index, some pc2.values⟩)
  | _, _ => ("", pc)

end PuddySql

namespace PuddySql

/-! ## The tag expression tokenizer (src/src/PuddySqlEngine.mjs lines 765-888)

`parseString(input, strictMode, strictConfig)` collapses whitespace,
optionally rejects empty input, runs a single left-to-right scan over the
characters handling quotes, parentheses, ` AND` and `OR ` tokens, applies
the end-of-input strict checks, flushes the remaining buffer and group and
finally runs the specials extraction.  (The legacy tokenizer in
src/src/TinySqlTags.mjs lines 502-596 is the same scan without the strict
checks.) -/

/-- The distinct strict-mode error conditions, each carrying the data its
thrown message interpolates. -/
inductive TokError where
  | emptyInput : TokError
  | parseLimitExceeded : Int → TokError
  | unexpectedCloseParen : Nat → TokError
  | unclosedQuote : Char → TokError
  | unclosedParen : Int → TokError
deriving Repr, DecidableEq

/-- Decimal rendering of a JS number that is an integer. -/
def intStr (n : Int) : String :=
  if n < 0 then "-" ++ natStr (-n).toNat else natStr n.toNat

/-- The thrown message of each strict-mode error. -/
def TokError.message : TokError → String
  | .emptyInput => "Input string is empty after trimming"
  | .parseLimitExceeded l => "Exceeded tag parse limit of " ++ intStr l
  | .unexpectedCloseParen i => "Unexpected closing parenthesis at position " ++ natStr i
  | .unclosedQuote q => "Unclosed quote starting with " ++ ⟨[q]⟩
  | .unclosedParen n => "Unclosed parenthesis — " ++ intStr n ++ " more ')' expected"

/-- The `strictConfig` argument: absent fields are `none`. -/
structure StrictCfgIn where
  emptyInput : Option Bool
  parseLimit : Option Bool
  openParens : Option Bool
  quoteChar : Option Bool
deriving Repr, DecidableEq

/-- The effective strict configuration after `_.defaults(strictConfig,
{ emptyInput: true, parseLimit: true, openParens: true, quoteChar: true })`
(lines 770-775). -/
structure StrictCfg where
  emptyInput : Bool
  parseLimit : Bool
  openParens : Bool
  quoteChar : Bool
deriving Repr, DecidableEq

/-- `_.defaults` over the four strict flags: keep a given field, fill a
missing one with `true`. -/
def strictDefaults (c : StrictCfgIn) : StrictCfg :=
  ⟨c.emptyInput.getD true, c.parseLimit.getD true,
   c.openParens.getD true, c.quoteChar.getD true⟩

/-- The `strictConfig` with no fields set. -/
def emptyStrictCfgIn : StrictCfgIn := ⟨none, none, none, none⟩

/-- The mutable local state of one `parseString` call (lines 782-794). -/
structure TokState where
  chunks : List Chunk
  currentGroup : List String
  buffer : List Char
  inQuotes : Bool
  quoteChar : Option Char
  uniqueTags : List String
  inGroup : Bool
  openParens : Int
  tagCount : Nat
deriving Repr, DecidableEq

/-- The initial tokenizer state. -/
def initTokState : TokState := ⟨[], [], [], false, none, [], false, 0, 0⟩

/-- The `flushBuffer` closure (lines 796-809): trim the buffer, drop it if
empty (leaving the buffer untouched), enforce the parse limit (throwing in
strict mode), apply duplicate suppression, and push into the current
group. -/
def flushBuffer (cfg : TagCfg) (strictMode : Bool) (sc : StrictCfg)
    (st : TokState) : Except TokError TokState :=
  let value := jsTrim ⟨st.buffer⟩
  if value = "" then .ok st
  else if cfg.parseLimit < 0 || (st.tagCount : Int) < cfg.parseLimit then
    if !cfg.noRepeat || st.inGroup || !(st.uniqueTags.contains value) then
      .ok { st with
            buffer := [],
            currentGroup := st.currentGroup ++ [value],
            uniqueTags := if !st.inGroup then value :: st.uniqueTags
                          else st.uniqueTags,
            tagCount := st.tagCount + 1 }
    else .ok { st with buffer := [] }
  else if strictMode && sc.parseLimit then
    .error (.parseLimitExceeded cfg.parseLimit)
  else .ok { st with buffer := [] }

/-- The `flushGroup` closure (lines 811-818): one accumulated term becomes
a bare chunk, several become an OR-group chunk. -/
def flushGroup (st : TokState) : TokState :=
  if st.currentGroup.length = 1 then
    { st with
      chunks := st.chunks ++ [Chunk.single (st.currentGroup.headD "")],
      currentGroup := [] }
  else if st.currentGroup.length > 1 then
    { st with
      chunks := st.chunks ++ [Chunk.orGroup st.currentGroup],
      currentGroup := [] }
  else { st with currentGroup := [] }

/-- The character scan of lines 820-874.  `i` is the source position (for
the strict unbalanced-parenthesis message); the ` AND` token consumes four
characters, the `OR ` token three, everything else one.  The fuel argument
only bounds the recursion; every step consumes at least one character, so
fuel equal to the remaining length always suffices and `parseString`
passes exactly that. -/
def tokLoop (cfg : TagCfg) (strictMode : Bool) (sc : StrictCfg) :
    Nat → List Char → Nat → TokState → Except TokError TokState
  | _, [], _, st => .ok st
  | 0, _ :: _, _, st => .ok st
  | fuel + 1, c :: rest, i, st =>
    if st.inQuotes then
      if st.quoteChar = some c then
        tokLoop cfg strictMode sc fuel rest (i + 1)
          { st with inQuotes := false, quoteChar := none }
      else tokLoop cfg strictMode sc fuel rest (i + 1)
        { st with buffer := st.buffer ++ [c] }
    else if c = '"' || c = '\'' then
      tokLoop cfg strictMode sc fuel rest (i + 1)
        { st with inQuotes := true, quoteChar := some c }
    else if c = '(' then
      match flushBuffer cfg strictMode sc
        { st with openParens := st.openParens + 1 } with
      | .error e => .error e
      | .ok st2 =>
        tokLoop cfg strictMode sc fuel rest (i + 1)
          { st2 with currentGroup := [], inGroup := true }
    else if c = ')' then
      if strictMode && sc.openParens && st.openParens ≤ 0 then
        .error (.unexpectedCloseParen i)
      else
        match flushBuffer cfg strictMode sc
          { st with openParens := st.openParens - 1 } with
        | .error e => .error e
        | .ok st2 =>
          tokLoop cfg strictMode sc fuel rest (i + 1)
            { (flushGroup st2) with inGroup := false }
    else
      match rest with
      | a :: b :: d :: rest4 =>
        if c = ' ' && (Char.toUpper a = 'A' && Char.toUpper b = 'N'
            && Char.toUpper d = 'D') then
          match flushBuffer cfg strictMode sc st with
          | .error e => .error e
          | .ok st2 =>
            tokLoop cfg strictMode sc fuel rest4 (i + 4) (flushGroup st2)
        else if Char.toUpper c = 'O' && Char.toUpper a = 'R' && b = ' ' then
          match flushBuffer cfg strictMode sc st with
          | .error e => .error e
          | .ok st2 => tokLoop cfg strictMode sc fuel (d :: rest4) (i + 3) st2
        else
          tokLoop cfg strictMode sc fuel rest (i + 1)
            { st with buffer := st.buffer ++ [c] }
      | [a, b] =>
        if Char.toUpper c = 'O' && Char.toUpper a = 'R' && b = ' ' then
          match flushBuffer cfg strictMode sc st with
          | .error e => .error e
          | .ok st2 => tokLoop cfg strictMode sc fuel [] (i + 3) st2
        else
          tokLoop cfg strictMode sc fuel rest (i + 1)
            { st with buffer := st.buffer ++ [c] }
      | _ =>
        tokLoop cfg strictMode sc fuel rest (i + 1)
          { st with buffer := st.buffer ++ [c] }

end PuddySql

namespace PuddySql

/-! ## Specials extraction (src/src/PuddySqlEngine.mjs lines 639-727)

`#extractSpecialsFromChunks` walks the chunk list from the last chunk to
the first, classifies every term (symbolic tag input, colon special, or
plain tag), rebuilds each chunk from its remaining terms and drops chunks
left empty. -/

/-- One entry of a symbolic tag-input output list:
`{ term, [valueKey]: value }`. -/
structure TagEntry where
  term : String
  valueKey : String
  value : Rat
deriving Repr, DecidableEq

/-- Update the value stored under the first occurrence of a key. -/
def assocUpdate (k : String) (f : α → α) : List (String × α) → List (String × α)
  | [] => []
  | (k', v) :: rest =>
    if k' == k then (k', f v) :: rest else (k', v) :: assocUpdate k f rest

/-- Insert-or-reset used by the `outputGroups`/`uniqueMap` initialisation
loop (lines 648-653): property assignment keeps the first-insertion
position of an existing key. -/
def assocReset (k : String) (v : α) : List (String × α) → List (String × α)
  | [] => [(k, v)]
  | (k', v') :: rest =>
    if k' == k then (k', v) :: rest else (k', v') :: assocReset k v rest

/-- JS `parseFloat` restricted to the simple decimal notation the tag
modifiers use (optional sign, digits, optional fraction); `none` models
`NaN`.  The scientific notation accepted by full `parseFloat` is not
modelled, no claim depends on it. -/
def jsParseFloat (s : String) : Option Rat :=
  let l := s.data.dropWhile isWsChar
  let signAndRest : Rat × List Char :=
    match l with
    | '-' :: r => (-1, r)
    | '+' :: r => (1, r)
    | _ => (1, l)
  let intPart := signAndRest.2.takeWhile Char.isDigit
  let afterInt := signAndRest.2.dropWhile Char.isDigit
  let fracPart :=
    match afterInt with
    | '.' :: r => r.takeWhile Char.isDigit
    | _ => []
  if intPart.isEmpty && fracPart.isEmpty then none
  else
    some (signAndRest.1 *
      ((digitsVal intPart : Rat) + (digitsVal fracPart : Rat) / ((10 : Rat) ^ fracPart.length)))
where
  digitsVal (l : List Char) : Nat := l.foldl (fun a c => a * 10 + (c.toNat - 48)) 0

/-- The mutable state of one extraction run: `specials`, the dynamic
`outputGroups` and `uniqueMap` records, and the `uniqueTags` set. -/
structure ExtractState where
  specials : List (String × String)
  groups : List (String × List TagEntry)
  uniqueMaps : List (String × List String)
  uniqueTags : List String

/-- The initialisation loop of lines 648-653: one empty list and one
empty set per configured tag-input list name. -/
def initExtractState (cfg : TagCfg) : ExtractState :=
  ⟨[],
   cfg.tagInputs.foldl (fun acc e => assocReset e.2.list [] acc) [],
   cfg.tagInputs.foldl (fun acc e => assocReset e.2.list [] acc) [],
   []⟩

/-- Processing of one term (lines 662-712): first matching tag-input
symbol wins; otherwise a registered colon special; otherwise a plain
term subject to duplicate suppression.  Returns the terms pushed to
`remainingTerms` (none or one) and the updated state. -/
def processTerm (cfg : TagCfg) (isArr : Bool) (st : ExtractState)
    (term : String) : List String × ExtractState :=
  match cfg.tagInputs.find? (fun e => term.data.contains e.1) with
  | some (symbol, input) =>
    let parts := jsSplitChar term symbol
    let termValue := jsTrim (parts.headD "")
    let rawValue := (parts.getD 1 "")
    let value := match jsParseFloat ⟨rawValue.data.map fun c => if c = '!' then '-' else c⟩ with
      | some v => v
      | none => 1
    let st1 :=
      if (lookupKey st.uniqueMaps input.list).getD [] |>.contains termValue then st
      else
        { st with
          groups := assocUpdate input.list (fun l => l ++ [⟨termValue, input.valueKey, value⟩]) st.groups,
          uniqueMaps := assocUpdate input.list (fun l => termValue :: l) st.uniqueMaps }
    if !cfg.noRepeat || isArr || !(st1.uniqueTags.contains termValue) then
      ([termValue],
       if !isArr then { st1 with uniqueTags := termValue :: st1.uniqueTags } else st1)
    else ([], st1)
  | none =>
    if term.data.contains ':' then
      let parts := jsSplitChar term ':'
      let key := parts.headD ""
      let value := joinSep ":" parts.tail
      match cfg.specialQueries.find? (fun q => q.title == key) with
      | some q =>
        let parsedValue := match q.parser with
          | some f => f value
          | none => value
        ([], { st with specials := st.specials ++ [(key, parsedValue)] })
      | none => ([term], st)
    else
      if !cfg.noRepeat || isArr || !(st.uniqueTags.contains term) then
        ([term],
         if !isArr then { st with uniqueTags := term :: st.uniqueTags } else st)
      else ([], st)

/-- The `for (const term of terms)` loop, collecting `remainingTerms`. -/
def processTermList (cfg : TagCfg) (isArr : Bool) (st : ExtractState) :
    List String → List String × ExtractState
  | [] => ([], st)
  | t :: rest =>
    match processTerm cfg isArr st t with
    | (kept, st1) =>
      match processTermList cfg isArr st1 rest with
      | (keptRest, st2) => (kept ++ keptRest, st2)

/-- The reverse chunk walk (`for (let i = chunks.length - 1; ...)`,
lines 657-720): the recursion processes the later chunks first, exactly
as the source iterates, and rebuilds the list in original order, dropping
chunks with no remaining terms and keeping a bare chunk bare. -/
def extractGo (cfg : TagCfg) : List Chunk → ExtractState → List Chunk × ExtractState
  | [], st => ([], st)
  | c :: rest, st =>
    match extractGo cfg rest st with
    | (rest2, st1) =>
      match c with
      | .single t =>
        match processTermList cfg false st1 [t] with
        | (remaining, st2) =>
          match remaining with
          | [] => (rest2, st2)
          | r :: _ => (Chunk.single r :: rest2, st2)
      | .orGroup terms =>
        match processTermList cfg true st1 terms with
        | (remaining, st2) =>
          match remaining with
          | [] => (rest2, st2)
          | _ :: _ => (Chunk.orGroup remaining :: rest2, st2)

/-- The output of `parseString`: the column, the residual include list,
the extracted specials and the dynamic tag-input groups. -/
structure ParseResult where
  column : String
  includeList : List Chunk
  specials : List (String × String)
  groups : List (String × List TagEntry)

/-- `#extractSpecialsFromChunks(chunks)` together with the surrounding
`parseString` epilogue `{ column, include: chunks, ...outputGroups }`. -/
def extractChunks (cfg : TagCfg) (chunks : List Chunk) :
    List Chunk × List (String × String) × List (String × List TagEntry) :=
  match extractGo cfg chunks (initExtractState cfg) with
  | (chunks2, st) => (chunks2, st.specials, st.groups)

/-- `PuddySqlTags.parseString(input, strictMode, strictConfig)`
(src/src/PuddySqlEngine.mjs lines 765-888). -/
def parseString (cfg : TagCfg) (input : String) (strictMode : Bool)
    (scIn : StrictCfgIn) : Except TokError ParseResult :=
  let sc := strictDefaults scIn
  let input2 := collapseTrim input
  if strictMode && sc.emptyInput && input2.data.length = 0 then
    .error .emptyInput
  else
    match tokLoop cfg strictMode sc input2.data.length input2.data 0 initTokState with
    | .error e => .error e
    | .ok st =>
      if strictMode && sc.quoteChar && st.inQuotes then
        .error (.unclosedQuote (match st.quoteChar with | some q => q | none => ' '))
      else if strictMode && sc.openParens && st.openParens > 0 then
        .error (.unclosedParen st.openParens)
      else
        match flushBuffer cfg strictMode sc st with
        | .error e => .error e
        | .ok st2 =>
          match extractChunks cfg (flushGroup st2).chunks with
          | (chunks2, specials, groups) =>
            .ok ⟨cfg.defaultColumn, chunks2, specials, groups⟩

end PuddySql

namespace PuddySql

/-! ## Clean identifiers and registry well-formedness

The placeholder invariant of the spec concerns the `$`-placeholders of
the generated SQL.  Identifiers (column names, operator overrides, SQL
function names) are trusted caller input that is never escaped, so the
invariant can only hold when they do not themselves contain `$`; the
predicates below capture exactly that (`$`-freeness, and for the pieces a
transform places after a placeholder, not opening with a digit). -/

/-- Boolean form of `headNotDigit`. -/
def headNotDigitB (l : List Char) : Bool :=
  match l.head? with
  | some c => !c.isDigit
  | none => true

theorem headNotDigitB_spec (l : List Char) (h : headNotDigitB l = true) :
    headNotDigit l := by
  intro c hc
  unfold headNotDigitB at h
  rw [hc] at h
  simpa using h

/-- Cleanliness of an optional identifier. -/
def noDollarO : Option String → Bool
  | some s => noDollar s
  | none => true

theorem noDollar_append (a b : String) :
    noDollar (a ++ b) = (noDollar a && noDollar b) := by
  simp [noDollar, List.contains_eq_any_beq]

theorem contains_of_noDollar_eq_false (s : String) (h : noDollar s = true) :
    s.data.contains '$' = false := by
  simpa [noDollar] using h

/-- A condition leaf whose printable fields are `$`-free: the rendered
column and the `newOp` override a `v2Resolver` may print. -/
def leafClean (l : Leaf) : Bool :=
  noDollar (optStr l.column) && noDollarO l.newOp

mutual

/-- Cleanliness of a condition tree: every leaf clean, every flat-map
entry key clean. -/
def groupClean : QueryGroup → Bool
  | .comp _ conds => groupListClean conds
  | .flat entries =>
    entries.all fun e =>
      noDollar e.1 && (match e.2 with
                       | some l => leafClean l
                       | none => true)
  | .leaf l => leafClean l
termination_by structural g => g

/-- Cleanliness of a list of condition trees. -/
def groupListClean : List QueryGroup → Bool
  | [] => true
  | g :: rest => groupClean g && groupListClean rest
termination_by structural l => l

end

/-- A resolver whose output never injects `$` into SQL text, given a
clean condition object. -/
def CondResolverOK (f : Leaf → ResolveResult) : Prop :=
  ∀ l : Leaf, leafClean l = true →
    noDollarO (f l).operator = true ∧ noDollarO (f l).column = true

/-- Every registered condition resolver is `CondResolverOK`. -/
def RegCondsOK (reg : Registry) : Prop :=
  ∀ k f, lookupKey reg.conds k = some f → CondResolverOK f

/-- A value transform that wraps its parameter between two fixed clean
pieces, the trailing one not opening with a digit (the shape
`addConditionV2` registers). -/
def ValfOK (g : String → String) : Prop :=
  ∃ pre post : String,
    (noDollar pre && noDollar post
      && headNotDigitB pre.data && headNotDigitB post.data) = true ∧
    ∀ p, g p = pre ++ p ++ post

/-- Every registered value transform is `ValfOK`. -/
def RegValfOK (reg : Registry) : Prop :=
  ∀ k g, lookupKey reg.valf k = some g → ValfOK g

theorem lookupKey_forall {α : Type} {P : α → Prop} (l : List (String × α))
    (hl : ∀ e ∈ l, P e.2) (k : String) (v : α)
    (h : lookupKey l k = some v) : P v := by
  unfold lookupKey at h
  cases hfind : l.find? (fun e => e.1 == k) with
  | none => rw [hfind] at h; cases h
  | some e =>
    rw [hfind] at h
    cases h
    exact hl e (List.mem_of_find?_eq_some hfind)

theorem strResolver_ok (s : String) (hs : noDollar s = true) :
    CondResolverOK (strResolver s) := by
  intro l _
  exact ⟨by simpa [strResolver, noDollarO] using hs, by simp [strResolver, noDollarO]⟩

theorem likeResolver_ok : CondResolverOK likeResolver := by
  intro l _
  constructor
  · simp [likeResolver, noDollarO, noDollar]
  · simp [likeResolver, noDollarO]

theorem v2Resolver_ok (fn : String) (ep : Bool) (op : String)
    (hfn : noDollar fn = true) (hop : noDollar op = true) :
    CondResolverOK (v2Resolver fn ep op) := by
  intro l hl
  have hcol : noDollar (optStr l.column) = true := by
    unfold leafClean at hl
    exact (Bool.and_eq_true_iff.mp hl).1
  have hnew : noDollarO l.newOp = true := by
    unfold leafClean at hl
    exact (Bool.and_eq_true_iff.mp hl).2
  constructor
  · cases hno : l.newOp with
    | some s =>
      rw [hno] at hnew
      simpa [v2Resolver, noDollarO, hno] using hnew
    | none => simpa [v2Resolver, noDollarO, hno] using hop
  · simp only [v2Resolver, noDollarO, noDollar_append, Bool.and_eq_true]
    exact ⟨⟨⟨hfn, by decide⟩, hcol⟩, by decide⟩

end PuddySql

namespace PuddySql

/-- The condition resolvers the constructor registers, in insertion
order. -/
theorem defaultRegistry_conds_eq : defaultRegistry.conds =
    [("LIKE", likeResolver), ("NOT", strResolver "!="), ("=", strResolver "="),
     ("!=", strResolver "!="), (">=", strResolver ">="), ("<=", strResolver "<="),
     (">", strResolver ">"), ("<", strResolver "<"),
     ("SOUNDEX", v2Resolver "SOUNDEX" true "="),
     ("LOWER", v2Resolver "LOWER" false "="),
     ("UPPER", v2Resolver "UPPER" false "="),
     ("TRIM", v2Resolver "TRIM" false "="),
     ("LTRIM", v2Resolver "LTRIM" false "="),
     ("RTRIM", v2Resolver "RTRIM" false "="),
     ("LENGTH", v2Resolver "LENGTH" false "="),
     ("ABS", v2Resolver "ABS" false "="),
     ("ROUND", v2Resolver "ROUND" false "="),
     ("CEIL", v2Resolver "CEIL" false ">="),
     ("FLOOR", v2Resolver "FLOOR" false "<="),
     ("COALESCE", v2Resolver "COALESCE" false "="),
     ("HEX", v2Resolver "HEX" false "="),
     ("QUOTE", v2Resolver "QUOTE" false "="),
     ("UNICODE", v2Resolver "UNICODE" false "="),
     ("CHAR", v2Resolver "CHAR" false "="),
     ("TYPEOF", v2Resolver "TYPEOF" false "="),
     ("DATE", v2Resolver "DATE" false "="),
     ("TIME", v2Resolver "TIME" false "="),
     ("DATETIME", v2Resolver "DATETIME" false "="),
     ("JULIANDAY", v2Resolver "JULIANDAY" false "=")] := by rfl

/-- The value transforms the constructor registers, in insertion order. -/
theorem defaultRegistry_valf_eq : defaultRegistry.valf =
    [("SOUNDEX", v2ValHandler "SOUNDEX"), ("LOWER", v2ValHandler "LOWER"),
     ("UPPER", v2ValHandler "UPPER"), ("TRIM", v2ValHandler "TRIM"),
     ("LTRIM", v2ValHandler "LTRIM"), ("RTRIM", v2ValHandler "RTRIM"),
     ("LENGTH", v2ValHandler "LENGTH"), ("ABS", v2ValHandler "ABS"),
     ("ROUND", v2ValHandler "ROUND"), ("CEIL", v2ValHandler "CEIL"),
     ("FLOOR", v2ValHandler "FLOOR"), ("COALESCE", v2ValHandler "COALESCE"),
     ("HEX", v2ValHandler "HEX"), ("QUOTE", v2ValHandler "QUOTE"),
     ("UNICODE", v2ValHandler "UNICODE"), ("CHAR", v2ValHandler "CHAR"),
     ("TYPEOF", v2ValHandler "TYPEOF"), ("DATE", v2ValHandler "DATE"),
     ("TIME", v2ValHandler "TIME"), ("DATETIME", v2ValHandler "DATETIME"),
     ("JULIANDAY", v2ValHandler "JULIANDAY")] := by rfl

/-- Every resolver of the default registry keeps SQL text `$`-free on
clean input. -/
theorem defaultRegistry_condsOK : RegCondsOK defaultRegistry := by
  intro k f h
  rw [defaultRegistry_conds_eq] at h
  refine lookupKey_forall _ ?_ k f h
  intro e he
  simp only [List.mem_cons, List.not_mem_nil, or_false] at he
  rcases he with h' | h' | h' | h' | h' | h' | h' | h' | h' | h' | h' | h'
    | h' | h' | h' | h' | h' | h' | h' | h' | h' | h' | h' | h' | h' | h'
    | h' | h' | h' <;> subst h'
  case _ => exact likeResolver_ok
  all_goals first
    | exact strResolver_ok _ (by decide)
    | exact v2Resolver_ok _ _ _ (by decide) (by decide)

/-- The transform registered by `addConditionV2` satisfies `ValfOK`. -/
theorem v2ValHandler_ok (fn : String) (hfn : noDollar fn = true)
    (hh : headNotDigitB (fn ++ "(").data = true) : ValfOK (v2ValHandler fn) := by
  refine ⟨fn ++ "(", ")", ?_, fun p => ?_⟩
  · simp only [noDollar_append, Bool.and_eq_true]
    exact ⟨⟨⟨⟨hfn, by decide⟩, by decide⟩, hh⟩, by decide⟩
  · show fn ++ "(" ++ p ++ ")" = (fn ++ "(") ++ p ++ ")"
    simp [String.append_assoc]

/-- Every value transform of the default registry wraps its parameter
between clean pieces. -/
theorem defaultRegistry_valfOK : RegValfOK defaultRegistry := by
  intro k g h
  rw [defaultRegistry_valf_eq] at h
  refine lookupKey_forall _ ?_ k g h
  intro e he
  simp only [List.mem_cons, List.not_mem_nil, or_false] at he
  rcases he with h' | h' | h' | h' | h' | h' | h' | h' | h' | h' | h'
    | h' | h' | h' | h' | h' | h' | h' | h' | h' | h' <;> subst h'
  all_goals exact v2ValHandler_ok _ (by decide) (by decide)

end PuddySql

namespace PuddySql

/-! ## Placeholder accounting for the condition compiler -/

theorem phRange_zero (i : Nat) : phRange i 0 = [] := by simp [phRange]

theorem phRange_one (i : Nat) : phRange i 1 = [natRepr i] := by
  simp [phRange, List.range']

theorem phRange_append (i m n : Nat) :
    phRange i m ++ phRange (i + m) n = phRange i (m + n) := by
  rw [phRange, phRange, phRange, ← List.map_append, List.range'_append_1, Nat.add_comm n m]

/-- Placeholders distribute over a `join` with a clean separator that
does not open with a digit. -/
theorem phNums_joinSep (sep : String) (hd : noDollar sep = true)
    (hne : sep.data ≠ []) (hh : headNotDigitB sep.data = true) :
    ∀ frags : List String,
      phNums (joinSep sep frags) = (frags.map phNums).flatten := by
  intro frags
  induction frags with
  | nil => simp [joinSep, phNums, phAux]
  | cons x rest ih =>
    cases rest with
    | nil => simp [joinSep, phNums]
    | cons y t =>
      have hsep : sep.data.contains '$' = false := contains_of_noDollar_eq_false _ hd
      have hstep : phNums (x ++ sep ++ joinSep sep (y :: t))
          = phNums x ++ phNums (joinSep sep (y :: t)) := by
        unfold phNums
        rw [String.append_assoc]
        rw [String.data_append]
        rw [phAux_append x.data (sep ++ joinSep sep (y :: t)).data PhState.normal ?hb]
        · congr 1
          rw [String.data_append]
          exact phAux_noDollar sep.data _ hsep
        · intro c hc
          rw [String.data_append] at hc
          cases hs : sep.data with
          | nil => exact absurd hs hne
          | cons c0 s0 =>
            rw [hs] at hc
            simp at hc
            rw [← hc]
            have := headNotDigitB_spec sep.data hh
            apply this
            rw [hs]
            rfl
      rw [show joinSep sep (x :: y :: t) = x ++ sep ++ joinSep sep (y :: t) from rfl]
      rw [hstep, ih]
      simp
  
/-- Wrapping a fragment in parentheses keeps its placeholders. -/
theorem phNums_paren (s : String) :
    phNums ("(" ++ s ++ ")") = phNums s := by
  unfold phNums
  rw [String.append_assoc, String.data_append]
  have h1 : phAux (("(" : String).data ++ (s ++ ")").data) .normal
      = phAux (s ++ ")").data .normal := phAux_noDollar _ _ (by decide)
  rw [h1, String.data_append]
  rw [phAux_append s.data (")" : String).data PhState.normal (by intro c hc; simp at hc; rw [← hc]; rfl)]
  simp [phAux]

/-- Placeholders of a leaf fragment
`front ++ (pre ++ "$" ++ natStr k ++ post)` with clean pieces. -/
theorem phNums_fragment (front pre post : String) (k : Nat)
    (hf : noDollar front = true)
    (hshape : (noDollar pre && noDollar post
      && headNotDigitB pre.data && headNotDigitB post.data) = true) :
    phNums (front ++ (pre ++ ("$" ++ natStr k) ++ post)) = [natRepr k] := by
  simp only [Bool.and_eq_true] at hshape
  unfold phNums
  rw [String.data_append]
  rw [phAux_noDollar front.data _ (contains_of_noDollar_eq_false _ hf)]
  have hdata : (pre ++ ("$" ++ natStr k) ++ post).data
      = pre.data ++ '$' :: (natRepr k ++ post.data) := by
    simp [String.data_append, natStr]
  rw [hdata]
  exact phAux_param pre.data post.data k .normal (Or.inl rfl)
    (contains_of_noDollar_eq_false _ hshape.1.1.1)
    (headNotDigitB_spec _ hshape.1.2)
    (contains_of_noDollar_eq_false _ hshape.1.1.2)
    (headNotDigitB_spec _ hshape.2)

end PuddySql

namespace PuddySql

/-- Contains over an append, for the `$` character. -/
theorem contains_append_false (a b : List Char)
    (ha : a.contains '$' = false) (hb : b.contains '$' = false) :
    (a ++ b).contains '$' = false := by
  simp only [List.contains_eq_any_beq, List.any_eq_false] at *
  intro c hc
  rcases List.mem_append.mp hc with h | h
  · exact ha c h
  · exact hb c h

/-- Placeholders of a legacy flat-map fragment, at the character level:
the extra literal `$` of the source template precedes the parameter text
without adding a placeholder. -/
theorem phAux_flat (colD opD preD postD : List Char) (k : Nat)
    (hcol : colD.contains '$' = false) (hop : opD.contains '$' = false)
    (hpre : preD.contains '$' = false) (hpreh : headNotDigit preD)
    (hpost : postD.contains '$' = false) (hposth : headNotDigit postD) :
    phAux ('(' :: (colD ++ ' ' :: (opD ++ ' ' :: '$' ::
      (preD ++ '$' :: (natRepr k ++ (postD ++ [')'])))))) .normal
      = [natRepr k] := by
  have hfront : ('(' :: (colD ++ ' ' :: (opD ++ [' ']))).contains '$' = false := by
    simp only [List.contains_cons]
    simp only [Bool.or_eq_false_iff]
    refine ⟨by decide, ?_⟩
    refine contains_append_false _ _ hcol ?_
    simp only [List.contains_cons, Bool.or_eq_false_iff]
    exact ⟨by decide, contains_append_false _ _ hop (by decide)⟩
  have hassoc : '(' :: (colD ++ ' ' :: (opD ++ ' ' :: '$' ::
      (preD ++ '$' :: (natRepr k ++ (postD ++ [')'])))))
      = ('(' :: (colD ++ ' ' :: (opD ++ [' ']))) ++ '$' ::
        (preD ++ '$' :: (natRepr k ++ (postD ++ [')']))) := by
    simp
  rw [hassoc]
  rw [phAux_noDollar _ _ hfront]
  have hstep : phAux ('$' :: (preD ++ '$' :: (natRepr k ++ (postD ++ [')']))))
      PhState.normal
      = phAux (preD ++ '$' :: (natRepr k ++ (postD ++ [')']))) PhState.afterDollar := by
    simp [phAux]
  rw [hstep]
  have hpost' : (postD ++ [')']).contains '$' = false :=
    contains_append_false _ _ hpost (by decide)
  have hposth' : headNotDigit (postD ++ [')']) := by
    intro c hc
    cases postD with
    | nil =>
      simp at hc
      rw [← hc]
      rfl
    | cons c0 p0 =>
      simp at hc
      rw [← hc]
      exact hposth c0 rfl
  have := phAux_param preD (postD ++ [')']) k .afterDollar (Or.inr rfl)
    hpre hpreh hpost' hposth'
  simpa using this

/-- The parameter text produced by `getParamResult` always has the
`pre ++ "$" ++ index ++ post` shape with clean `pre`/`post`, and the call
advances the index by exactly one. -/
theorem getParamResult_shape (reg : Registry) (hv : RegValfOK reg)
    (pc : Pcache) (vt : Option String) :
    ∃ pre post : String,
      (noDollar pre && noDollar post
        && headNotDigitB pre.data && headNotDigitB post.data) = true ∧
      (getParamResult reg pc vt).1 = pre ++ ("$" ++ natStr pc.index) ++ post ∧
      (getParamResult reg pc vt).2 = ⟨pc.index + 1, pc.values⟩ := by
  unfold getParamResult
  cases vt with
  | none =>
    refine ⟨"", "", by decide, ?_, rfl⟩
    simp
  | some t =>
    cases hl : lookupKey reg.valf t with
    | none =>
      refine ⟨"", "", by decide, ?_, rfl⟩
      simp [hl]
    | some f =>
      obtain ⟨pre, post, hok, hshape⟩ := hv t f hl
      refine ⟨pre, post, hok, ?_, rfl⟩
      simp only [hl]
      exact hshape _

/-- The operator-resolution block keeps the effective column and operator
`$`-free on clean input. -/
theorem applyResolver_clean (reg : Registry) (hc : RegCondsOK reg)
    (col0 : String) (l : Leaf) (h0 : noDollar col0 = true)
    (hl : leafClean l = true) :
    noDollar (applyResolver reg col0 l).1 = true ∧
    noDollar (applyResolver reg col0 l).2.1 = true := by
  cases ho : l.operator with
  | none =>
    refine ⟨?_, ?_⟩ <;> simp [applyResolver, ho]
    · exact h0
    · decide
  | some opKey =>
    cases hf : lookupKey reg.conds (jsToUpper opKey) with
    | none =>
      refine ⟨?_, ?_⟩ <;> simp [applyResolver, ho, hf]
      · exact h0
      · decide
    | some f =>
      have hok := hc _ f hf l hl
      refine ⟨?_, ?_⟩ <;> simp only [applyResolver, ho, hf]
      · cases hcc : (f l).column with
        | none => simpa [hcc] using h0
        | some c =>
          have h2 := hok.2
          rw [hcc] at h2
          simpa [hcc, noDollarO] using h2
      · cases hoo : (f l).operator with
        | none => simp [hoo]; decide
        | some o =>
          have h1 := hok.1
          rw [hoo] at h1
          simpa [hoo, noDollarO] using h1

end PuddySql

namespace PuddySql

/-- Postcondition of one compile against the shared cache: some list of
values is appended, the index advances by exactly their number, and the
placeholders of the output are exactly the allocated indices, in order. -/
def CondOut (start : Pcache) (out : String × Pcache) : Prop :=
  ∃ w : List JsVal, out.2.values = start.values ++ w ∧
    out.2.index = start.index + w.length ∧
    phNums out.1 = phRange start.index w.length

/-- String-level form of `phAux_flat` for the flat-map fragment
template of line 1883. -/
theorem phNums_flat_fragment (col op pre post : String) (k : Nat)
    (hcol : noDollar col = true) (hop : noDollar op = true)
    (hshape : (noDollar pre && noDollar post
      && headNotDigitB pre.data && headNotDigitB post.data) = true) :
    phNums ("(" ++ col ++ " " ++ op ++ " $" ++ (pre ++ ("$" ++ natStr k) ++ post) ++ ")")
      = [natRepr k] := by
  simp only [Bool.and_eq_true] at hshape
  unfold phNums
  have hdata : ("(" ++ col ++ " " ++ op ++ " $"
      ++ (pre ++ ("$" ++ natStr k) ++ post) ++ ")").data
      = '(' :: (col.data ++ ' ' :: (op.data ++ ' ' :: '$' ::
        (pre.data ++ '$' :: (natRepr k ++ (post.data ++ [')']))))) := by
    simp [String.data_append, natStr]
  rw [hdata]
  exact phAux_flat col.data op.data pre.data post.data k
    (contains_of_noDollar_eq_false _ hcol)
    (contains_of_noDollar_eq_false _ hop)
    (contains_of_noDollar_eq_false _ hshape.1.1.1)
    (headNotDigitB_spec _ hshape.1.2)
    (contains_of_noDollar_eq_false _ hshape.1.1.2)
    (headNotDigitB_spec _ hshape.2)

/-- The single-condition branch appends exactly one value, advances the
index once, and emits exactly the placeholder it allocated. -/
theorem qParseLeaf_spec (reg : Registry) (hv : RegValfOK reg)
    (hc : RegCondsOK reg) (pc : Pcache) (l : Leaf)
    (hl : leafClean l = true) : CondOut pc (qParseLeaf reg pc l) := by
  have h0 : noDollar (optStr l.column) = true := by
    unfold leafClean at hl
    exact (Bool.and_eq_true_iff.mp hl).1
  rcases hAR : applyResolver reg (optStr l.column) l with ⟨col, op, value, valType⟩
  have hclean := applyResolver_clean reg hc (optStr l.column) l h0 hl
  rw [hAR] at hclean
  obtain ⟨hcol, hop⟩ := hclean
  obtain ⟨pre, post, hshape, htext, hpc2⟩ :=
    getParamResult_shape reg hv ⟨pc.index, pc.values ++ [value]⟩ valType
  refine ⟨[value], ?_, ?_, ?_⟩
  · simp [qParseLeaf, hAR, hpc2]
  · simp [qParseLeaf, hAR, hpc2]
  · simp only [qParseLeaf, hAR]
    rw [htext]
    show phNums ((col ++ " " ++ op ++ " ")
      ++ (pre ++ ("$" ++ natStr pc.index) ++ post)) = phRange pc.index 1
    rw [phRange_one]
    exact phNums_fragment (col ++ " " ++ op ++ " ") pre post pc.index
      (by simp [noDollar_append, hcol, hop]; decide) hshape

/-- The legacy flat-map loop: one value per entry, contiguous
placeholders across the collected fragments. -/
theorem qParseFlat_spec (reg : Registry) (hv : RegValfOK reg)
    (hc : RegCondsOK reg) :
    ∀ (entries : List (String × Option Leaf)) (pc : Pcache)
      (frags : List String) (pc' : Pcache),
      (entries.all fun e => noDollar e.1
        && (match e.2 with
            | some l => leafClean l
            | none => true)) = true →
      qParseFlat reg pc entries = .ok (frags, pc') →
      ∃ w : List JsVal, pc'.values = pc.values ++ w ∧
        pc'.index = pc.index + w.length ∧
        (frags.map phNums).flatten = phRange pc.index w.length := by
  intro entries
  induction entries with
  | nil =>
    intro pc frags pc' _ h
    simp only [qParseFlat] at h
    cases h
    exact ⟨[], by simp, by simp, by simp [phRange_zero]⟩
  | cons e rest ih =>
    intro pc frags pc' hcl h
    rcases e with ⟨newCol, body⟩
    cases body with
    | none => simp [qParseFlat] at h
    | some cond =>
      simp only [List.all_cons, Bool.and_eq_true] at hcl
      obtain ⟨⟨hkey, hleaf⟩, hrest⟩ := hcl
      rcases hAR : applyResolver reg newCol cond with ⟨col, op, value, valType⟩
      have hclean := applyResolver_clean reg hc newCol cond hkey hleaf
      rw [hAR] at hclean
      obtain ⟨hcol, hop⟩ := hclean
      obtain ⟨pre, post, hshape, htext, hpc2⟩ :=
        getParamResult_shape reg hv ⟨pc.index, pc.values ++ [value]⟩ valType
      simp only [qParseFlat, hAR, hpc2, htext] at h
      cases hq : qParseFlat reg ⟨pc.index + 1, pc.values ++ [value]⟩ rest with
      | error e2 => rw [hq] at h; cases h
      | ok out =>
        rcases out with ⟨frags2, pc3⟩
        obtain ⟨w2, hw2v, hw2i, hw2p⟩ :=
          ih ⟨pc.index + 1, pc.values ++ [value]⟩ frags2 pc3 hrest hq
        rw [hq] at h
        cases h
        refine ⟨value :: w2, ?_, ?_, ?_⟩
        · simpa using hw2v
        · simp at hw2i ⊢
          omega
        · simp only [List.map_cons, List.flatten_cons]
          rw [phNums_flat_fragment col op pre post pc.index hcol hop hshape]
          simp at hw2p
          rw [hw2p]
          have := phRange_append pc.index 1 w2.length
          rw [phRange_one] at this
          simp at this ⊢
          rw [show pc.index + 1 = pc.index + 1 from rfl] at this
          rw [this]
          congr 1
          omega

end PuddySql

namespace PuddySql

/-- The separator ` <logic> ` used by the composite branch is clean. -/
theorem logicSep_ok (logic : Option String) :
    noDollar (" " ++ (match logic with
                      | some s => if jsToUpper s = "OR" then "OR" else "AND"
                      | none => "AND") ++ " ") = true
    ∧ (" " ++ (match logic with
               | some s => if jsToUpper s = "OR" then "OR" else "AND"
               | none => "AND") ++ " ").data ≠ []
    ∧ headNotDigitB (" " ++ (match logic with
               | some s => if jsToUpper s = "OR" then "OR" else "AND"
               | none => "AND") ++ " ").data = true := by
  have hL : (match logic with
             | some s => if jsToUpper s = "OR" then "OR" else "AND"
             | none => "AND") = "OR"
      ∨ (match logic with
         | some s => if jsToUpper s = "OR" then "OR" else "AND"
         | none => "AND") = "AND" := by
    cases logic with
    | none => exact Or.inr rfl
    | some s =>
      by_cases hs : jsToUpper s = "OR"
      · exact Or.inl (by simp [hs])
      · exact Or.inr (by simp [hs])
  rcases hL with h | h <;> rw [h] <;> exact ⟨by decide, by decide, by decide⟩

mutual

/-- `PuddySqlQuery.parseWhere` satisfies the placeholder-cache invariant:
whatever clean condition tree it compiles, the values it appends, the
index increments and the emitted placeholders agree, in order. -/
theorem qParseWhere_spec (reg : Registry) (hv : RegValfOK reg)
    (hc : RegCondsOK reg) (g : QueryGroup) :
    ∀ pc s pc', groupClean g = true →
      qParseWhere reg pc g = .ok (s, pc') → CondOut pc (s, pc') := by
  cases g with
  | leaf l =>
    intro pc s pc' hcl h
    simp only [qParseWhere] at h
    cases h
    exact qParseLeaf_spec reg hv hc pc l hcl
  | flat entries =>
    intro pc s pc' hcl h
    simp only [qParseWhere] at h
    cases hq : qParseFlat reg pc entries with
    | error e => rw [hq] at h; cases h
    | ok out =>
      rcases out with ⟨frags, pc2⟩
      obtain ⟨w, hw1, hw2, hw3⟩ :=
        qParseFlat_spec reg hv hc entries pc frags pc2 (by simpa [groupClean] using hcl) hq
      rw [hq] at h
      cases h
      refine ⟨w, hw1, hw2, ?_⟩
      rw [phNums_joinSep " AND " (by decide) (by decide) (by decide) frags]
      exact hw3
  | comp logic conds =>
    intro pc s pc' hcl h
    simp only [qParseWhere] at h
    cases hq : qParseConds reg pc conds with
    | error e => rw [hq] at h; cases h
    | ok out =>
      rcases out with ⟨frags, pc2⟩
      obtain ⟨w, hw1, hw2, hw3⟩ :=
        qParseConds_spec reg hv hc conds pc frags pc2 (by simpa [groupClean] using hcl) hq
      rw [hq] at h
      cases h
      refine ⟨w, hw1, hw2, ?_⟩
      obtain ⟨hs1, hs2, hs3⟩ := logicSep_ok logic
      rw [phNums_joinSep _ hs1 hs2 hs3 frags]
      exact hw3
termination_by structural g

/-- The recursive child map of the composite branch: children compile
in sequence against the threaded cache, each wrapped in parentheses. -/
theorem qParseConds_spec (reg : Registry) (hv : RegValfOK reg)
    (hc : RegCondsOK reg) (cs : List QueryGroup) :
    ∀ pc frags pc', groupListClean cs = true →
      qParseConds reg pc cs = .ok (frags, pc') →
      ∃ w : List JsVal, pc'.values = pc.values ++ w ∧
        pc'.index = pc.index + w.length ∧
        (frags.map phNums).flatten = phRange pc.index w.length := by
  cases cs with
  | nil =>
    intro pc frags pc' _ h
    simp only [qParseConds] at h
    cases h
    exact ⟨[], by simp, by simp, by simp [phRange_zero]⟩
  | cons c rest =>
    intro pc frags pc' hcl h
    simp only [qParseConds] at h
    have hcl1 : groupClean c = true := by
      simp only [groupListClean, Bool.and_eq_true] at hcl
      exact hcl.1
    have hcl2 : groupListClean rest = true := by
      simp only [groupListClean, Bool.and_eq_true] at hcl
      exact hcl.2
    cases hq : qParseWhere reg pc c with
    | error e => rw [hq] at h; cases h
    | ok out =>
      rcases out with ⟨s1, pc2⟩
      obtain ⟨w1, hw11, hw12, hw13⟩ := qParseWhere_spec reg hv hc c pc s1 pc2 hcl1 hq
      rw [hq] at h
      dsimp only at h
      cases hq2 : qParseConds reg pc2 rest with
      | error e => rw [hq2] at h; cases h
      | ok out2 =>
        rcases out2 with ⟨frags2, pc3⟩
        obtain ⟨w2, hw21, hw22, hw23⟩ :=
          qParseConds_spec reg hv hc rest pc2 frags2 pc3 hcl2 hq2
        rw [hq2] at h
        cases h
        refine ⟨w1 ++ w2, ?_, ?_, ?_⟩
        · rw [hw21, hw11, List.append_assoc]
        · rw [hw22, hw12]
          simp
          omega
        · simp only [List.map_cons, List.flatten_cons]
          rw [phNums_paren, hw13, hw23, hw12]
          have := phRange_append pc.index w1.length w2.length
          rw [this]
          congr 1
          simp
termination_by structural cs

end

end PuddySql

namespace PuddySql

/-! ## Placeholder accounting for the tag compiler -/

theorem str_eq_of_data (s t : String) (h : s.data = t.data) : s = t := by
  cases s
  cases t
  cases h
  rfl

/-- Cleanliness of the configured identifiers a tag compile can print. -/
def tagCfgClean (cfg : TagCfg) : Bool :=
  noDollar (nullStr cfg.jsonEach) && noDollar cfg.defaultColumn
    && noDollar (nullStr cfg.defaultValueName)

/-- Cleanliness of the caller-supplied identifiers of one tag criteria. -/
def tagGroupClean (g : TagGroup) : Bool :=
  noDollarO g.column && noDollarO g.valueName

theorem orFalsy_clean (a b : Option String)
    (ha : noDollarO a = true) (hb : noDollarO b = true) :
    noDollarO (orFalsy a b) = true := by
  cases a with
  | none => simpa [orFalsy] using hb
  | some s =>
    by_cases hs : s = ""
    · simpa [orFalsy, hs] using hb
    · simpa [orFalsy, hs] using ha

theorem nullStr_clean (a : Option String) (ha : noDollarO a = true) :
    noDollar (nullStr a) = true := by
  cases a with
  | none => decide
  | some s => simpa [nullStr, noDollarO] using ha

/-- A `createQuery` rendering with the parameter text `$k` contains
exactly the placeholder `k`. -/
theorem createQuery_phNums (cfg : TagCfg) (tCol : String) (tVal : Option String)
    (fn : String) (k : Nat) (useLike : Bool)
    (hfn : noDollar fn = true) (hcol : noDollar tCol = true)
    (hval : noDollar (nullStr tVal) = true)
    (hje : noDollar (nullStr cfg.jsonEach) = true) :
    phNums (createQuery cfg tCol tVal fn ("$" ++ natStr k) useLike) = [natRepr k] := by
  have hlikec : noDollar (if useLike then "LIKE" else "=") = true := by
    split <;> decide
  by_cases hu : cfg.useJsonEach
  · have he : createQuery cfg tCol tVal fn ("$" ++ natStr k) useLike
        = (fn ++ " (SELECT 1 FROM " ++ (nullStr cfg.jsonEach ++ "(" ++ tCol
            ++ ") WHERE value " ++ (if useLike then "LIKE" else "=") ++ " "))
          ++ ("" ++ ("$" ++ natStr k) ++ ")") := by
      apply str_eq_of_data
      simp [createQuery, hu, String.data_append]
    rw [he]
    refine phNums_fragment _ "" ")" k ?_ (by decide)
    simp only [noDollar_append, Bool.and_eq_true]
    repeat' constructor
    all_goals first | assumption | decide | (split <;> decide)
  · have he : createQuery cfg tCol tVal fn ("$" ++ natStr k) useLike
        = (fn ++ " (SELECT 1 FROM " ++ (tCol ++ " WHERE " ++ tCol ++ "."
            ++ nullStr tVal ++ " " ++ (if useLike then "LIKE" else "=") ++ " "))
          ++ ("" ++ ("$" ++ natStr k) ++ ")") := by
      apply str_eq_of_data
      simp [createQuery, hu, String.data_append]
    rw [he]
    refine phNums_fragment _ "" ")" k ?_ (by decide)
    simp only [noDollar_append, Bool.and_eq_true]
    repeat' constructor
    all_goals first | assumption | decide | (split <;> decide)

/-- One tag fragment: exactly one value pushed, index advanced once,
exactly the allocated placeholder emitted. -/
theorem tagFragment_spec (cfg : TagCfg) (tCol : String) (tVal : Option String)
    (aw : Bool) (pc : Pcache) (tag : String)
    (hcol : noDollar tCol = true) (hval : noDollar (nullStr tVal) = true)
    (hje : noDollar (nullStr cfg.jsonEach) = true) :
    ∃ v : JsVal,
      (tagFragment cfg tCol tVal aw pc tag).2
        = ⟨pc.index + 1, pc.values ++ [v]⟩ ∧
      phNums (tagFragment cfg tCol tVal aw pc tag).1 = [natRepr pc.index] := by
  unfold tagFragment filterTag
  refine ⟨_, rfl, ?_⟩
  have hfn : noDollar ((if (tag.data.head? = some '!' : Bool) then "NOT " else "")
      ++ "EXISTS") = true := by
    split <;> decide
  exact createQuery_phNums cfg tCol tVal _ pc.index _ hfn hcol hval hje

/-- The OR-group map: one value per member, contiguous placeholders, and
as many fragments as values. -/
theorem tagOrFragments_spec (cfg : TagCfg) (tCol : String) (tVal : Option String)
    (aw : Bool)
    (hcol : noDollar tCol = true) (hval : noDollar (nullStr tVal) = true)
    (hje : noDollar (nullStr cfg.jsonEach) = true) :
    ∀ (tags : List String) (pc : Pcache),
      ∃ w : List JsVal,
        (tagOrFragments cfg tCol tVal aw pc tags).2
          = ⟨pc.index + w.length, pc.values ++ w⟩ ∧
        (((tagOrFragments cfg tCol tVal aw pc tags).1.map phNums).flatten
          = phRange pc.index w.length) ∧
        (tagOrFragments cfg tCol tVal aw pc tags).1.length = w.length := by
  intro tags
  induction tags with
  | nil =>
    intro pc
    exact ⟨[], by simp [tagOrFragments], by simp [tagOrFragments, phRange_zero], by simp [tagOrFragments]⟩
  | cons t rest ih =>
    intro pc
    obtain ⟨v, hv2, hv1⟩ := tagFragment_spec cfg tCol tVal aw pc t hcol hval hje
    obtain ⟨w2, hw2, hwp, hwl⟩ := ih ⟨pc.index + 1, pc.values ++ [v]⟩
    refine ⟨v :: w2, ?_, ?_, ?_⟩
    · simp only [tagOrFragments]
      rcases hfr : tagFragment cfg tCol tVal aw pc t with ⟨frag, pcx⟩
      rw [hfr] at hv2
      simp only at hv2
      subst hv2
      rcases hor : tagOrFragments cfg tCol tVal aw ⟨pc.index + 1, pc.values ++ [v]⟩ rest
        with ⟨frags2, pcy⟩
      rw [hor] at hw2
      simp only at hw2
      subst hw2
      simp
      omega
    · simp only [tagOrFragments]
      rcases hfr : tagFragment cfg tCol tVal aw pc t with ⟨frag, pcx⟩
      rw [hfr] at hv2 hv1
      simp only at hv2 hv1
      subst hv2
      rcases hor : tagOrFragments cfg tCol tVal aw ⟨pc.index + 1, pc.values ++ [v]⟩ rest
        with ⟨frags2, pcy⟩
      rw [hor] at hwp
      simp only [List.map_cons, List.flatten_cons]
      rw [hv1, hwp]
      have := phRange_append pc.index 1 w2.length
      rw [phRange_one] at this
      simp only [List.length_cons]
      rw [show w2.length + 1 = 1 + w2.length from by omega]
      simpa using this
    · simp only [tagOrFragments]
      rcases hfr : tagFragment cfg tCol tVal aw pc t with ⟨frag, pcx⟩
      rw [hfr] at hv2
      simp only at hv2
      subst hv2
      rcases hor : tagOrFragments cfg tCol tVal aw ⟨pc.index + 1, pc.values ++ [v]⟩ rest
        with ⟨frags2, pcy⟩
      rw [hor] at hwl
      simpa using hwl

end PuddySql

namespace PuddySql

/-- The include loop: contiguous placeholders across the collected
fragments, and no values without fragments. -/
theorem tagClauses_spec (cfg : TagCfg) (tCol : String) (tVal : Option String)
    (aw : Bool)
    (hcol : noDollar tCol = true) (hval : noDollar (nullStr tVal) = true)
    (hje : noDollar (nullStr cfg.jsonEach) = true) :
    ∀ (inc : List Chunk) (pc : Pcache),
      ∃ w : List JsVal,
        (tagClauses cfg tCol tVal aw pc inc).2
          = ⟨pc.index + w.length, pc.values ++ w⟩ ∧
        (((tagClauses cfg tCol tVal aw pc inc).1.map phNums).flatten
          = phRange pc.index w.length) ∧
        ((tagClauses cfg tCol tVal aw pc inc).1.isEmpty = true → w = []) := by
  intro inc
  induction inc with
  | nil =>
    intro pc
    exact ⟨[], by simp [tagClauses], by simp [tagClauses, phRange_zero], by simp⟩
  | cons c rest ih =>
    intro pc
    cases c with
    | single t =>
      obtain ⟨v, hv2, hv1⟩ := tagFragment_spec cfg tCol tVal aw pc t hcol hval hje
      rcases hfr : tagFragment cfg tCol tVal aw pc t with ⟨frag, pcx⟩
      rw [hfr] at hv2 hv1
      simp only at hv2 hv1
      subst hv2
      obtain ⟨w2, hw2, hwp, hwe⟩ := ih ⟨pc.index + 1, pc.values ++ [v]⟩
      rcases hcl : tagClauses cfg tCol tVal aw ⟨pc.index + 1, pc.values ++ [v]⟩ rest
        with ⟨frags2, pcy⟩
      rw [hcl] at hw2 hwp
      refine ⟨v :: w2, ?_, ?_, ?_⟩
      · simp only [tagClauses, hfr, hcl]
        simp only at hw2
        rw [hw2]
        simp
        omega
      · simp only [tagClauses, hfr, hcl]
        simp only [List.map_cons, List.flatten_cons]
        rw [hv1]
        simp only at hwp
        rw [hwp]
        have := phRange_append pc.index 1 w2.length
        rw [phRange_one] at this
        simp only [List.length_cons]
        rw [show w2.length + 1 = 1 + w2.length from by omega]
        simpa using this
      · simp [tagClauses, hfr, hcl]
    | orGroup terms =>
      obtain ⟨w1, hw12, hw1p, hw1l⟩ :=
        tagOrFragments_spec cfg tCol tVal aw hcol hval hje terms pc
      rcases hor : tagOrFragments cfg tCol tVal aw pc terms with ⟨ors, pcx⟩
      rw [hor] at hw12 hw1p hw1l
      simp only at hw12 hw1p hw1l
      subst hw12
      obtain ⟨w2, hw2, hwp, hwe⟩ := ih ⟨pc.index + w1.length, pc.values ++ w1⟩
      rcases hcl : tagClauses cfg tCol tVal aw
        ⟨pc.index + w1.length, pc.values ++ w1⟩ rest with ⟨frags2, pcy⟩
      rw [hcl] at hw2 hwp hwe
      simp only at hw2 hwp hwe
      by_cases hors : ors.length ≠ 0
      · refine ⟨w1 ++ w2, ?_, ?_, ?_⟩
        · simp only [tagClauses, hor, hcl, if_pos hors]
          rw [hw2]
          simp
          omega
        · simp only [tagClauses, hor, hcl, if_pos hors]
          simp only [List.map_cons, List.flatten_cons]
          rw [phNums_paren]
          rw [phNums_joinSep " OR " (by decide) (by decide) (by decide) ors]
          rw [hw1p, hwp]
          have := phRange_append pc.index w1.length w2.length
          rw [this]
          congr 1
          simp
        · have ho : ¬(ors = []) := by
            intro h
            rw [h] at hors
            simp at hors
          simp [tagClauses, hor, hcl, ho]
      · push_neg at hors
        have hors' : ors = [] := List.length_eq_zero.mp hors
        have hw1nil : w1 = [] := by
          rw [hors'] at hw1l
          exact (List.length_eq_zero.mp hw1l.symm)
        subst hw1nil
        subst hors'
        refine ⟨w2, ?_, ?_, ?_⟩
        · simp only [tagClauses, hor, hcl]
          simp only [List.length_nil, ne_eq, not_true_eq_false, if_false]
          rw [hw2]
          simp
        · simp only [tagClauses, hor, hcl]
          simp only [List.length_nil, ne_eq, not_true_eq_false, if_false]
          rw [hwp]
          simp
        · simp only [tagClauses, hor, hcl]
          simp only [List.length_nil, ne_eq, not_true_eq_false, if_false]
          intro hemp
          exact hwe (by simpa using hemp)

/-- The shared tag compile loop satisfies the placeholder invariant. -/
theorem tagCore_spec (cfg : TagCfg) (g : TagGroup) (inc : List Chunk)
    (pc : Pcache) (hcfg : tagCfgClean cfg = true)
    (hg : tagGroupClean g = true) :
    CondOut pc (tagCore cfg g inc pc) := by
  simp only [tagCfgClean, Bool.and_eq_true] at hcfg
  simp only [tagGroupClean, Bool.and_eq_true] at hg
  have hcol : noDollar (nullStr (orFalsy g.column (some cfg.defaultColumn))) = true := by
    apply nullStr_clean
    apply orFalsy_clean _ _ hg.1
    simpa [noDollarO] using hcfg.1.2
  have hval : noDollar (nullStr (orFalsy g.valueName cfg.defaultValueName)) = true := by
    apply nullStr_clean
    apply orFalsy_clean _ _ hg.2
    cases hdv : cfg.defaultValueName with
    | none => decide
    | some s =>
      have := hcfg.2
      rw [hdv] at this
      simpa [noDollarO, nullStr] using this
  obtain ⟨w, hw2, hwp, hwe⟩ :=
    tagClauses_spec cfg _ _ (match g.allowWildcards with | some b => b | none => false)
      hcol hval hcfg.1.1 inc pc
  rcases hcl : tagClauses cfg (nullStr (orFalsy g.column (some cfg.defaultColumn)))
      (orFalsy g.valueName cfg.defaultValueName)
      (match g.allowWildcards with | some b => b | none => false) pc inc
    with ⟨frags, pcx⟩
  rw [hcl] at hw2 hwp hwe
  simp only at hw2 hwp hwe
  subst hw2
  by_cases hfr : frags.length ≠ 0
  · refine ⟨w, ?_, ?_, ?_⟩
    · simp [tagCore, hcl, if_pos hfr]
    · simp [tagCore, hcl, if_pos hfr]
    · simp only [tagCore, hcl, if_pos hfr]
      rw [phNums_paren]
      rw [phNums_joinSep " AND " (by decide) (by decide) (by decide) frags]
      exact hwp
  · push_neg at hfr
    have hfr' : frags = [] := List.length_eq_zero.mp hfr
    have hwnil : w = [] := hwe (by simp [hfr'])
    subst hwnil
    refine ⟨[], ?_, ?_, ?_⟩
    · simp [tagCore, hcl, hfr']
    · simp [tagCore, hcl, hfr']
    · simp only [tagCore, hcl, hfr']
      simp [phRange_zero]
      decide

end PuddySql

namespace PuddySql

/-! ## Shared compile sessions (claim C1)

A caller assembles one WHERE clause by compiling any interleaving of
condition trees (`PuddySqlQuery.parseWhere`) and tag criteria
(`PuddySqlTags.parseWhere`) against one shared placeholder cache, joining
the returned fragments with `AND` (as `PuddySqlQuery.search` does at
lines 2093-2123 of src/src/PuddySqlQuery.mjs). -/

/-- One compile request of such a session. -/
inductive Req where
  | cond : QueryGroup → Req
  | tag : TagGroup → Req

/-- Cleanliness of the caller-trusted identifiers of one request. -/
def reqClean : Req → Bool
  | .cond g => groupClean g
  | .tag tg => tagGroupClean tg

/-- Compile a list of requests against one shared cache, collecting the
returned SQL fragments. -/
def compileSession (reg : Registry) (cfg : TagCfg) :
    List Req → Pcache → Except String (List String × Pcache)
  | [], pc => .ok ([], pc)
  | .cond g :: rest, pc =>
    match qParseWhere reg pc g with
    | .error e => .error e
    | .ok (s, pc2) =>
      match compileSession reg cfg rest pc2 with
      | .error e => .error e
      | .ok (frags, pc3) => .ok (s :: frags, pc3)
  | .tag tg :: rest, pc =>
    match tagParseWhere cfg tg pc with
    | .error e => .error e
    | .ok (s, pc2) =>
      match compileSession reg cfg rest pc2 with
      | .error e => .error e
      | .ok (frags, pc3) => .ok (s :: frags, pc3)

/-- Step invariant of a session, from an arbitrary starting cache. -/
theorem compileSession_spec (cfg : TagCfg) (hcfg : tagCfgClean cfg = true) :
    ∀ (reqs : List Req) (pc : Pcache) (frags : List String) (pc' : Pcache),
      reqs.all reqClean = true →
      compileSession defaultRegistry cfg reqs pc = .ok (frags, pc') →
      ∃ w : List JsVal, pc'.values = pc.values ++ w ∧
        pc'.index = pc.index + w.length ∧
        (frags.map phNums).flatten = phRange pc.index w.length := by
  intro reqs
  induction reqs with
  | nil =>
    intro pc frags pc' _ h
    simp only [compileSession] at h
    cases h
    exact ⟨[], by simp, by simp, by simp [phRange_zero]⟩
  | cons r rest ih =>
    intro pc frags pc' hcl h
    simp only [List.all_cons, Bool.and_eq_true] at hcl
    have step :
        ∀ s1 pc2, (match r with
            | .cond g => qParseWhere defaultRegistry pc g
            | .tag tg => tagParseWhere cfg tg pc) = .ok (s1, pc2) →
          CondOut pc (s1, pc2) := by
      intro s1 pc2 hr
      cases r with
      | cond g =>
        exact qParseWhere_spec defaultRegistry defaultRegistry_valfOK
          defaultRegistry_condsOK g pc s1 pc2 hcl.1 hr
      | tag tg =>
        simp only [tagParseWhere] at hr
        cases hin : tg.includeList with
        | none => rw [hin] at hr; cases hr
        | some inc =>
          rw [hin] at hr
          cases hr
          exact tagCore_spec cfg tg inc pc hcfg hcl.1
    cases r with
    | cond g =>
      simp only [compileSession] at h
      cases hq : qParseWhere defaultRegistry pc g with
      | error e => rw [hq] at h; cases h
      | ok out =>
        rcases out with ⟨s1, pc2⟩
        obtain ⟨w1, hw11, hw12, hw13⟩ := step s1 pc2 hq
        rw [hq] at h
        dsimp only at h
        cases hq2 : compileSession defaultRegistry cfg rest pc2 with
        | error e => rw [hq2] at h; cases h
        | ok out2 =>
          rcases out2 with ⟨frags2, pc3⟩
          obtain ⟨w2, hw21, hw22, hw23⟩ := ih pc2 frags2 pc3 hcl.2 hq2
          rw [hq2] at h
          cases h
          refine ⟨w1 ++ w2, ?_, ?_, ?_⟩
          · rw [hw21]
            simp only at hw11
            rw [hw11, List.append_assoc]
          · rw [hw22]
            simp only at hw12
            rw [hw12]
            simp
            omega
          · simp only [List.map_cons, List.flatten_cons]
            simp only at hw13
            rw [hw13, hw23]
            simp only at hw12
            rw [hw12]
            rw [phRange_append]
            congr 1
            simp
    | tag tg =>
      simp only [compileSession] at h
      cases hq : tagParseWhere cfg tg pc with
      | error e => rw [hq] at h; cases h
      | ok out =>
        rcases out with ⟨s1, pc2⟩
        obtain ⟨w1, hw11, hw12, hw13⟩ := step s1 pc2 hq
        rw [hq] at h
        dsimp only at h
        cases hq2 : compileSession defaultRegistry cfg rest pc2 with
        | error e => rw [hq2] at h; cases h
        | ok out2 =>
          rcases out2 with ⟨frags2, pc3⟩
          obtain ⟨w2, hw21, hw22, hw23⟩ := ih pc2 frags2 pc3 hcl.2 hq2
          rw [hq2] at h
          cases h
          refine ⟨w1 ++ w2, ?_, ?_, ?_⟩
          · rw [hw21]
            simp only at hw11
            rw [hw11, List.append_assoc]
          · rw [hw22]
            simp only at hw12
            rw [hw12]
            simp
            omega
          · simp only [List.map_cons, List.flatten_cons]
            simp only at hw13
            rw [hw13, hw23]
            simp only at hw12
            rw [hw12]
            rw [phRange_append]
            congr 1
            simp

end PuddySql

namespace PuddySql

/-- C1: for every compile of a condition tree (`ConditionNode` or legacy
flat map) or of a tag criteria against a shared placeholder cache —
including interleaved compiles of both compilers on the same cache — the
cache index increases by exactly one per appended bound value, the count
of `$`-placeholders in the produced SQL text equals
`cache.values.length`, and the placeholder numbered `$k` corresponds to
`values[k-1]`.  Formally: starting from a fresh cache, any session of
clean requests that succeeds leaves `index = values.length + 1`, and the
placeholder occurrences of the `AND`-joined SQL text (the digit runs
after `$`, the notion the repository itself uses in
`validatePostgresParams`) are exactly `1, 2, ..., values.length` in
order, so the `k`-th placeholder is allocated exactly when `values[k-1]`
is pushed.  A `$`-placeholder is `$` followed by a maximal digit run;
identifiers are required `$`-free (they are trusted, unescaped caller
input by design). -/
theorem C1_shared_cache_placeholder_invariant (cfg : TagCfg)
    (reqs : List Req) (frags : List String) (pc' : Pcache)
    (hcfg : tagCfgClean cfg = true)
    (hclean : reqs.all reqClean = true)
    (h : compileSession defaultRegistry cfg reqs ⟨1, []⟩ = .ok (frags, pc')) :
    pc'.index = pc'.values.length + 1 ∧
    phNums (joinSep " AND " frags) = (List.range' 1 pc'.values.length).map natRepr := by
  obtain ⟨w, hw1, hw2, hw3⟩ :=
    compileSession_spec cfg hcfg reqs ⟨1, []⟩ frags pc' hclean h
  simp only at hw1 hw2
  simp only [List.nil_append] at hw1
  have hwlen : pc'.values.length = w.length := by rw [hw1]
  constructor
  · rw [hw2, hwlen]
    omega
  · rw [phNums_joinSep " AND " (by decide) (by decide) (by decide) frags, hw3, hwlen]
    rfl

/-- A session interleaving a composite condition tree, a tag criteria
with wildcards and an OR-group, and a legacy flat map. -/
def demoReqs : List Req :=
  [.cond (.comp (some "OR") [.leaf (mkLeaf "status" "active"), .leaf (mkLeaf "type" "admin")]),
   .tag ⟨none, none, some true, some [.single "rain*dash", .orGroup ["a", "!b"]]⟩,
   .cond (.flat [("yay", some (mkLeaf "x" "v"))])]

/-- The outcome of the demo session. -/
def demoOut : List String × Pcache :=
  match compileSession defaultRegistry defaultTagCfg demoReqs ⟨1, []⟩ with
  | .ok r => r
  | .error _ => ([], ⟨1, []⟩)

/-- Witness for C1 at a concrete interleaved session of both compilers. -/
theorem C1_shared_cache_placeholder_invariant_witness :
    demoOut.2.index = demoOut.2.values.length + 1 ∧
    phNums (joinSep " AND " demoOut.1)
      = (List.range' 1 demoOut.2.values.length).map natRepr :=
  C1_shared_cache_placeholder_invariant defaultTagCfg demoReqs demoOut.1 demoOut.2
    (by decide) (by decide) (by rfl)

end PuddySql

namespace PuddySql

/-- C2 counterexample: compiling the single condition
`{ column: 'a', operator: 'FOO', value: 'x' }` — whose operator key is not
registered — emits `a = $1`, not the verbatim text `a FOO $1` the claim
asserts: the fallback operator is `'='`, the given string never appears in
the SQL. -/
theorem C2_verbatim_fallback_counterexample :
    qParseWhere defaultRegistry ⟨1, []⟩
        (.leaf ⟨some "a", some "FOO", some "x", none, none, none, none⟩)
      = .ok ("a = $1", ⟨2, [some "x"]⟩)
    ∧ jsIncludes "a = $1" "FOO" = false
    ∧ ("a = $1" : String) ≠ "a FOO $1" := by
  exact ⟨rfl, rfl, by decide⟩

/-- C2 (amended): for every single condition whose uppercased operator
key is not registered and which selects no value transform, the generic
condition compiler falls back to the default operator `'='` — not to the
verbatim operator string — applies no value transform, pushes the raw
value, and does not throw. -/
theorem C2_unregistered_operator_fallback (pc : Pcache) (l : Leaf)
    (opKey : String) (hop : l.operator = some opKey)
    (hreg : lookupKey defaultRegistry.conds (jsToUpper opKey) = none)
    (hvt : l.valType = none) :
    qParseWhere defaultRegistry pc (.leaf l)
      = .ok (optStr l.column ++ " " ++ "=" ++ " " ++ ("$" ++ natStr pc.index),
             ⟨pc.index + 1, pc.values ++ [l.value]⟩) := by
  simp [qParseWhere, qParseLeaf, applyResolver, getParamResult, hop, hreg, hvt]

/-- Witness for the amended C2 at the unregistered key `FOO`. -/
theorem C2_unregistered_operator_fallback_witness :
    qParseWhere defaultRegistry ⟨1, []⟩
        (.leaf ⟨some "a", some "FOO", some "x", none, none, none, none⟩)
      = .ok (optStr (some "a") ++ " " ++ "=" ++ " " ++ ("$" ++ natStr 1),
             ⟨2, [some "x"]⟩) :=
  C2_unregistered_operator_fallback ⟨1, []⟩
    ⟨some "a", some "FOO", some "x", none, none, none, none⟩ "FOO"
    rfl (by rfl) rfl

/-- C3: for every tag criteria whose include list is missing (absent or
not an array, modelled by `none`), the current tag criteria compiler
(`PuddySqlTags.parseWhere` in src/src/PuddySqlEngine.mjs, lines 553-556)
throws synchronously, before any SQL text is produced: the result is an
error carrying the thrown `TypeError` message, never SQL text. -/
theorem C3_missing_include_throws (cfg : TagCfg) (col vn : Option String)
    (aw : Option Bool) (pc : Pcache) :
    tagParseWhere cfg ⟨col, vn, aw, none⟩ pc
      = .error "Expected 'include' to be an array of tags or tag groups, but got undefined" := rfl

/-- C5: compiling the composite condition
`{ group: 'OR', conditions: [{column:'status', value:'active'},
{column:'type', value:'admin'}] }` against a fresh cache returns the SQL
text `(status = $1) OR (type = $2)` and leaves the cache values
`['active', 'admin']` with index 3. -/
theorem C5_composite_or_example :
    qParseWhere defaultRegistry ⟨1, []⟩
        (.comp (some "OR") [.leaf (mkLeaf "status" "active"), .leaf (mkLeaf "type" "admin")])
      = .ok ("(status = $1) OR (type = $2)", ⟨3, [some "active", some "admin"]⟩) := rfl

/-- C6: registering a second condition under an already-registered key
(present in either the condition map or the value-handler map) throws
synchronously with the duplicate-key error, and the failed call leaves
the registry unchanged — every throw in `addCondition` happens before the
assignments. -/
theorem C6_duplicate_condition_key_throws (r : Registry) (key : String)
    (ch : CondHandler) (vh : Option (String → String))
    (hkey : ¬(jsTrim key = ""))
    (hdup : ((lookupKey r.conds key).isSome || (lookupKey r.valf key).isSome) = true) :
    addCondition r key ch vh
      = (.error ("Condition key \"" ++ key ++ "\" already exists."), r) := by
  unfold addCondition
  rw [if_neg hkey, if_pos hdup]

/-- Witness for C6: re-registering `LIKE` on a fresh default registry. -/
theorem C6_duplicate_condition_key_throws_witness :
    addCondition defaultRegistry "LIKE" (.str "x") none
      = (.error ("Condition key \"LIKE\" already exists."), defaultRegistry) :=
  C6_duplicate_condition_key_throws defaultRegistry "LIKE" (.str "x") none
    (by decide) (by rfl)

/-- C9: for every tag criteria whose include list is empty, both tag
compilers return the SQL text `'1'` — never the empty string — and append
no values to the placeholder cache (the cache is returned untouched). -/
theorem C9_empty_include_compiles_to_one (cfg : TagCfg)
    (col vn : Option String) (aw : Option Bool) (pc : Pcache)
    (i : Nat) (vs : List JsVal) :
    tagParseWhere cfg ⟨col, vn, aw, some []⟩ pc = .ok ("1", pc)
    ∧ tagParseWhereLegacy cfg (.obj ⟨col, vn, aw, some []⟩) (.obj ⟨some i, some vs⟩)
      = ("1", .obj ⟨some i, some vs⟩) := by
  constructor
  · rfl
  · rfl

/-- C10: for every call of the legacy tag compiler
(`TinySqlTags.parseWhere`) in which the group argument or the cache
argument is not a plain object, the compiler returns the empty string —
not `'1'` and not an error — and does not modify the cache argument. -/
theorem C10_legacy_nonobject_returns_empty (cfg : TagCfg) :
    (∀ pcArg : JsArg RawPcache, tagParseWhereLegacy cfg .notObj pcArg = ("", pcArg))
    ∧ (∀ gArg : JsArg TagGroup, tagParseWhereLegacy cfg gArg .notObj = ("", .notObj)) := by
  constructor
  · intro pcArg
    cases pcArg <;> rfl
  · intro gArg
    cases gArg <;> rfl

end PuddySql

namespace PuddySql

/-- With strict mode off, `flushBuffer` never throws: its only throw is
guarded by `strictMode`. -/
theorem flushBuffer_ok (cfg : TagCfg) (sc : StrictCfg) (st : TokState) :
    ∃ st2, flushBuffer cfg false sc st = .ok st2 := by
  unfold flushBuffer
  dsimp only
  repeat'
    first
    | exact ⟨_, rfl⟩
    | split
  all_goals simp_all

/-- With strict mode off, `flushBuffer` never produces an error value. -/
theorem flushBuffer_ne_error (cfg : TagCfg) (sc : StrictCfg) (st : TokState)
    (e : TokError) : flushBuffer cfg false sc st ≠ .error e := by
  obtain ⟨st2, h2⟩ := flushBuffer_ok cfg sc st
  simp [h2]

/-- With strict mode off, the tokenizer scan never throws: every throw
site is guarded by `strictMode`. -/
theorem tokLoop_ok (cfg : TagCfg) (sc : StrictCfg) :
    ∀ (fuel : Nat) (cs : List Char) (i : Nat) (st : TokState),
      ∃ st2, tokLoop cfg false sc fuel cs i st = .ok st2 := by
  intro fuel
  induction fuel with
  | zero =>
    intro cs i st
    cases cs <;> exact ⟨_, rfl⟩
  | succ f ih =>
    intro cs i st
    cases cs with
    | nil => exact ⟨_, rfl⟩
    | cons c rest =>
      simp only [tokLoop]
      repeat' split
      all_goals first
        | exact ih _ _ _
        | exact absurd (by assumption) (flushBuffer_ne_error _ _ _ _)
        | simp_all

/-- With strict mode off, `parseString` never throws, whatever the input
and strict configuration. -/
theorem parseString_nonstrict_ok (cfg : TagCfg) (input : String)
    (scIn : StrictCfgIn) :
    ∃ r, parseString cfg input false scIn = .ok r := by
  unfold parseString
  simp only [Bool.false_and, if_false]
  obtain ⟨st, hst⟩ := tokLoop_ok cfg (strictDefaults scIn)
    (collapseTrim input).data.length (collapseTrim input).data 0 initTokState
  rw [hst]
  simp only [Bool.false_and, if_false]
  obtain ⟨st2, hst2⟩ := flushBuffer_ok cfg (strictDefaults scIn) st
  rw [hst2]
  exact ⟨_, rfl⟩

end PuddySql

namespace PuddySql

/-- C4: the tag expression tokenizer provides the four strict-mode
checks — empty-after-trim input, exceeded parse-term limit, unbalanced
parentheses (both an unexpected `)` and an unclosed `(`), and an
unterminated quote.  All four are enabled by default when strict mode is
requested (`_.defaults` fills every absent flag with `true`); each
raises its own distinct error when its condition holds, shown here on
concrete inputs; each is independently toggleable, shown by turning off
exactly the governing flag on the same inputs; and with strict mode off
no input raises at all. -/
theorem C4_tokenizer_strict_checks :
    strictDefaults emptyStrictCfgIn = ⟨true, true, true, true⟩
    ∧ (∀ (cfg : TagCfg) (input : String) (scIn : StrictCfgIn),
        ∃ r, parseString cfg input false scIn = .ok r)
    ∧ parseString defaultTagCfg "   " true emptyStrictCfgIn = .error .emptyInput
    ∧ parseString { defaultTagCfg with parseLimit := 1 } "a AND b" true emptyStrictCfgIn
        = .error (.parseLimitExceeded 1)
    ∧ parseString defaultTagCfg "a)" true emptyStrictCfgIn
        = .error (.unexpectedCloseParen 1)
    ∧ parseString defaultTagCfg "(a" true emptyStrictCfgIn = .error (.unclosedParen 1)
    ∧ parseString defaultTagCfg "\"a" true emptyStrictCfgIn = .error (.unclosedQuote '"')
    ∧ (parseString defaultTagCfg "   " true ⟨some false, none, none, none⟩).isOk = true
    ∧ (parseString { defaultTagCfg with parseLimit := 1 } "a AND b" true
        ⟨none, some false, none, none⟩).isOk = true
    ∧ (parseString defaultTagCfg "a)" true ⟨none, none, some false, none⟩).isOk = true
    ∧ (parseString defaultTagCfg "(a" true ⟨none, none, some false, none⟩).isOk = true
    ∧ (parseString defaultTagCfg "\"a" true ⟨none, none, none, some false⟩).isOk = true :=
  ⟨rfl, parseString_nonstrict_ok, rfl, rfl, rfl, rfl, rfl, rfl, rfl, rfl, rfl, rfl⟩

end PuddySql

namespace PuddySql

/-- C7: for every tag with no leading `!`, compiled with wildcards
allowed and containing a configured wildcard token, `filterTag` binds the
transformed value `applyWildcards` — which escapes pre-existing literal
`%`/`_` and then substitutes the many-token with `%` and the one-token
with `_` — and switches the comparison to `LIKE` (the `useLike` flag of
`createQuery` is set); with the default tokens `*`→many and `?`→one,
`"rain*dash"` becomes the bound value `"rain%dash"` (and a literal `%`
is escaped first, as in `"50%*off"`), and the full compiler renders the
`LIKE` comparison around placeholder `$1`. -/
theorem C7_wildcard_substitution (cfg : TagCfg) (tagsColumn : String)
    (tagsValue : Option String) (t : String) (pc : Pcache)
    (hn : t.data.head? ≠ some '!') (hw : hasWildcard cfg t = true) :
    tagFragment cfg tagsColumn tagsValue true pc t
      = (createQuery cfg tagsColumn tagsValue "EXISTS" ("$" ++ natStr pc.index) true,
         ⟨pc.index + 1, pc.values ++ [some (applyWildcards cfg t)]⟩)
    ∧ applyWildcards defaultTagCfg "rain*dash" = "rain%dash"
    ∧ applyWildcards defaultTagCfg "50%*off" = "50\\%%off"
    ∧ createQuery defaultTagCfg "tags" none "EXISTS" "$1" true
        = "EXISTS (SELECT 1 FROM json_array_elements_text(tags) WHERE value LIKE $1)"
    ∧ tagParseWhere defaultTagCfg ⟨none, none, some true, some [.single "rain*dash"]⟩ ⟨1, []⟩
        = .ok ("(EXISTS (SELECT 1 FROM json_array_elements_text(tags) WHERE value LIKE $1))",
               ⟨2, [some "rain%dash"]⟩) := by
  refine ⟨?_, rfl, rfl, rfl, rfl⟩
  unfold tagFragment filterTag
  simp [if_neg hn, decide_eq_false hn, hw]

/-- Witness for C7 at the tag `"rain*dash"`. -/
theorem C7_wildcard_substitution_witness :
    tagFragment defaultTagCfg "tags" none true ⟨1, []⟩ "rain*dash"
      = (createQuery defaultTagCfg "tags" none "EXISTS" ("$" ++ natStr 1) true,
         ⟨1 + 1, [] ++ [some (applyWildcards defaultTagCfg "rain*dash")]⟩) :=
  (C7_wildcard_substitution defaultTagCfg "tags" none "rain*dash" ⟨1, []⟩
     (by decide) (by decide)).1

end PuddySql

namespace PuddySql

/-- C8: during specials extraction, a residual term containing `:` that
matches no tag-input symbol is split at the first `:`; when its key
prefix matches a registered special title the term is removed (nothing
is kept) and `(key, value)` is pushed to `specials`, the value first run
through the value parser when one is present; when the key matches no
registered title the term is kept unchanged as an ordinary literal term
and the state is untouched — no error is possible.  In particular, with
a special titled `source` registered, parsing `"source:ponybooru"`
yields specials `[("source", "ponybooru")]` and an empty include list. -/
theorem C8_colon_specials_extraction :
    (∀ (cfg : TagCfg) (isArr : Bool) (st : ExtractState) (t : String) (q : SpecialQuery),
        cfg.tagInputs = defaultTagCfg.tagInputs →
        t.data.contains '^' = false → t.data.contains '~' = false →
        t.data.contains ':' = true →
        cfg.specialQueries.find? (fun s => s.title == (jsSplitChar t ':').headD "") = some q →
        processTerm cfg isArr st t
          = ([], { st with specials := st.specials ++
              [((jsSplitChar t ':').headD "",
                match q.parser with
                | some f => f (joinSep ":" (jsSplitChar t ':').tail)
                | none => joinSep ":" (jsSplitChar t ':').tail)] }))
    ∧ (∀ (cfg : TagCfg) (isArr : Bool) (st : ExtractState) (t : String),
        cfg.tagInputs = defaultTagCfg.tagInputs →
        t.data.contains '^' = false → t.data.contains '~' = false →
        t.data.contains ':' = true →
        cfg.specialQueries.find? (fun s => s.title == (jsSplitChar t ':').headD "") = none →
        processTerm cfg isArr st t = ([t], st))
    ∧ parseString { defaultTagCfg with specialQueries := [⟨"source", none⟩] }
          "source:ponybooru" false emptyStrictCfgIn
        = .ok ⟨"tags", [], [("source", "ponybooru")],
               [("boosts", []), ("fuzzies", [])]⟩ := by
  refine ⟨?_, ?_, rfl⟩
  · intro cfg isArr st t q hti h1 h2 hc hfind
    unfold processTerm
    rw [hti]
    have h1m : decide (Membership.mem t.data '^') = false := by simpa using h1
    have h2m : decide (Membership.mem t.data '~') = false := by simpa using h2
    have hfd : List.find? (fun e => t.data.contains e.1) defaultTagCfg.tagInputs = none := by
      simp [defaultTagCfg, List.find?, h1m, h2m]
    rw [hfd]
    dsimp only
    simp only [hc, if_true, hfind]
  · intro cfg isArr st t hti h1 h2 hc hfind
    unfold processTerm
    rw [hti]
    have h1m : decide (Membership.mem t.data '^') = false := by simpa using h1
    have h2m : decide (Membership.mem t.data '~') = false := by simpa using h2
    have hfd : List.find? (fun e => t.data.contains e.1) defaultTagCfg.tagInputs = none := by
      simp [defaultTagCfg, List.find?, h1m, h2m]
    rw [hfd]
    dsimp only
    simp only [hc, if_true, hfind]

end PuddySql
